import Mathlib

/-!
Verification of the algorithm-pattern collection: a shallow embedding of the
Python modules (binary search, merge intervals, fast/slow pointers, graph
traversal, two pointers, sliding window, backtracking) together with proofs
of the specification's claims about them.

Conventions of the embedding:
* Python lists of ints become `List Int`; loop cursors that can go negative
  (for example `right = len(arr) - 1` on an empty list) become `Int`.
* An indexing operation that can raise `IndexError` on an executed path is
  modelled with `Option` (`none` = the call raises); indexing that is kept
  in bounds by the surrounding loop conditions is modelled with `getD`.
* Each while-loop becomes structural recursion on an explicit `fuel : Nat`
  that bounds the number of remaining iterations.  The zero-fuel branch
  returns the same value as the loop-exit branch, and every loop lemma below
  carries the hypothesis that the fuel exceeds the loop measure, so the
  zero-fuel branch is never reached from the top-level entry points (which
  pass a sufficient fuel).  This keeps every definition evaluable by `decide`.
-/

/-- Reading `arr[i]` for an `Int` cursor `i`.  Every use below is proved to be
in range (`0 ≤ i < arr.length`), so the default value is never exercised. -/
def idx (l : List Int) (i : Int) : Int := l.getD i.toNat 0

/-! ## Binary Search family (src/examples/python/binary_search.py) -/

/-- Loop of `BasicBinarySearch.binary_search`: while `left ≤ right`, compare
`arr[mid]` with the target and narrow one bound. -/
def binary_search_loop (arr : List Int) (target : Int) :
    Nat → Int → Int → Int
  | 0, _, _ => -1
  | fuel + 1, left, right =>
    if left ≤ right then
      if idx arr (left + (right - left) / 2) = target then left + (right - left) / 2
      else if idx arr (left + (right - left) / 2) < target then
        binary_search_loop arr target fuel (left + (right - left) / 2 + 1) right
      else
        binary_search_loop arr target fuel left (left + (right - left) / 2 - 1)
    else -1

/-- `BasicBinarySearch.binary_search`: standard binary search returning an
index or `-1`.  The fuel `arr.length + 1` exceeds the initial loop measure
`(right - left + 1).toNat = arr.length`. -/
def binary_search (arr : List Int) (target : Int) : Int :=
  binary_search_loop arr target (arr.length + 1) 0 ((arr.length : Int) - 1)

/-- Loop of `BasicBinarySearch.find_first_occurrence`: on a match record the
index and keep searching to the left. -/
def find_first_occurrence_loop (arr : List Int) (target : Int) :
    Nat → Int → Int → Int → Int
  | 0, _, _, result => result
  | fuel + 1, left, right, result =>
    if left ≤ right then
      if idx arr (left + (right - left) / 2) = target then
        find_first_occurrence_loop arr target fuel left
          (left + (right - left) / 2 - 1) (left + (right - left) / 2)
      else if idx arr (left + (right - left) / 2) < target then
        find_first_occurrence_loop arr target fuel
          (left + (right - left) / 2 + 1) right result
      else
        find_first_occurrence_loop arr target fuel left
          (left + (right - left) / 2 - 1) result
    else result

/-- `BasicBinarySearch.find_first_occurrence`. -/
def find_first_occurrence (arr : List Int) (target : Int) : Int :=
  find_first_occurrence_loop arr target (arr.length + 1) 0
    ((arr.length : Int) - 1) (-1)

/-- Loop of `BasicBinarySearch.find_last_occurrence`: on a match record the
index and keep searching to the right. -/
def find_last_occurrence_loop (arr : List Int) (target : Int) :
    Nat → Int → Int → Int → Int
  | 0, _, _, result => result
  | fuel + 1, left, right, result =>
    if left ≤ right then
      if idx arr (left + (right - left) / 2) = target then
        find_last_occurrence_loop arr target fuel
          (left + (right - left) / 2 + 1) right (left + (right - left) / 2)
      else if idx arr (left + (right - left) / 2) < target then
        find_last_occurrence_loop arr target fuel
          (left + (right - left) / 2 + 1) right result
      else
        find_last_occurrence_loop arr target fuel left
          (left + (right - left) / 2 - 1) result
    else result

/-- `BasicBinarySearch.find_last_occurrence`. -/
def find_last_occurrence (arr : List Int) (target : Int) : Int :=
  find_last_occurrence_loop arr target (arr.length + 1) 0
    ((arr.length : Int) - 1) (-1)

/-- Loop of `BinarySearchVariations.search_insert_position`: half-open
`while left < right` convergence; the bounds never go negative, so `Nat`
cursors are faithful. -/
def search_insert_position_loop (nums : List Int) (target : Int) :
    Nat → Nat → Nat → Nat
  | 0, left, _ => left
  | fuel + 1, left, right =>
    if left < right then
      if nums.getD (left + (right - left) / 2) 0 < target then
        search_insert_position_loop nums target fuel
          (left + (right - left) / 2 + 1) right
      else
        search_insert_position_loop nums target fuel left
          (left + (right - left) / 2)
    else left

/-- `BinarySearchVariations.search_insert_position`. -/
def search_insert_position (nums : List Int) (target : Int) : Nat :=
  search_insert_position_loop nums target (nums.length + 1) 0 nums.length

/-- Loop of `BinarySearchVariations.search_rotated_array`. -/
def search_rotated_array_loop (nums : List Int) (target : Int) :
    Nat → Int → Int → Int
  | 0, _, _ => -1
  | fuel + 1, left, right =>
    if left ≤ right then
      if idx nums (left + (right - left) / 2) = target then
        left + (right - left) / 2
      else if idx nums left ≤ idx nums (left + (right - left) / 2) then
        if idx nums left ≤ target ∧ target < idx nums (left + (right - left) / 2) then
          search_rotated_array_loop nums target fuel left
            (left + (right - left) / 2 - 1)
        else
          search_rotated_array_loop nums target fuel
            (left + (right - left) / 2 + 1) right
      else
        if idx nums (left + (right - left) / 2) < target ∧
            target ≤ idx nums right then
          search_rotated_array_loop nums target fuel
            (left + (right - left) / 2 + 1) right
        else
          search_rotated_array_loop nums target fuel left
            (left + (right - left) / 2 - 1)
    else -1

/-- `BinarySearchVariations.search_rotated_array`. -/
def search_rotated_array (nums : List Int) (target : Int) : Int :=
  search_rotated_array_loop nums target (nums.length + 1) 0
    ((nums.length : Int) - 1)

/-- Loop of `BinarySearchVariations.find_minimum_rotated`; the final read
`nums[left]` is the one access that can raise (on an empty list), hence the
`Option` result. -/
def find_minimum_rotated_loop (nums : List Int) :
    Nat → Int → Int → Option Int
  | 0, left, _ => nums.get? left.toNat
  | fuel + 1, left, right =>
    if left < right then
      if idx nums (left + (right - left) / 2) > idx nums right then
        find_minimum_rotated_loop nums fuel (left + (right - left) / 2 + 1) right
      else
        find_minimum_rotated_loop nums fuel left (left + (right - left) / 2)
    else nums.get? left.toNat

/-- `BinarySearchVariations.find_minimum_rotated`; `none` models the
`IndexError` raised by `return nums[left]` on an empty list. -/
def find_minimum_rotated (nums : List Int) : Option Int :=
  find_minimum_rotated_loop nums (nums.length + 1) 0 ((nums.length : Int) - 1)

/-- Reading `matrix[i][j]` with in-range use proved at every call site. -/
def midx (matrix : List (List Int)) (i j : Int) : Int :=
  idx (matrix.getD i.toNat []) j

/-- Loop of `BinarySearchVariations.search_2d_matrix` over the flattened
index range. -/
def search_2d_matrix_loop (matrix : List (List Int)) (target : Int)
    (cols : Nat) : Nat → Int → Int → Bool
  | 0, _, _ => false
  | fuel + 1, left, right =>
    if left ≤ right then
      if midx matrix ((left + (right - left) / 2) / (cols : Int))
          ((left + (right - left) / 2) % (cols : Int)) = target then true
      else if midx matrix ((left + (right - left) / 2) / (cols : Int))
          ((left + (right - left) / 2) % (cols : Int)) < target then
        search_2d_matrix_loop matrix target cols fuel
          (left + (right - left) / 2 + 1) right
      else
        search_2d_matrix_loop matrix target cols fuel left
          (left + (right - left) / 2 - 1)
    else false

/-- `BinarySearchVariations.search_2d_matrix`: guard clauses return `False`
for an empty or zero-column matrix. -/
def search_2d_matrix (matrix : List (List Int)) (target : Int) : Bool :=
  match matrix with
  | [] => false
  | row0 :: _ =>
    if row0.isEmpty then false
    else
      search_2d_matrix_loop matrix target row0.length
        (matrix.length * row0.length + 1) 0
        ((matrix.length : Int) * (row0.length : Int) - 1)

/-- Inner scan of `PeakFinding.find_peak_2d`: index of the maximal element of
column `c` (the first maximum, as the Python loop updates only on strictly
greater). -/
def maxRowInCol (matrix : List (List Int)) (rows : Nat) (c : Int) : Nat :=
  (List.range rows).foldl
    (fun (mr i : Nat) =>
      if midx matrix (i : Int) c > midx matrix (mr : Int) c then i else mr) 0

/-- Loop of `PeakFinding.find_peak_2d` over column bounds. -/
def find_peak_2d_loop (matrix : List (List Int)) (rows : Nat) (cols : Nat) :
    Nat → Int → Int → List Int
  | 0, _, _ => [-1, -1]
  | fuel + 1, left, right =>
    if left ≤ right then
      have left_val : Int :=
        if left + (right - left) / 2 > 0 then
          midx matrix (maxRowInCol matrix rows (left + (right - left) / 2) : Int)
            (left + (right - left) / 2 - 1)
        else -1
      have right_val : Int :=
        if left + (right - left) / 2 < (cols : Int) - 1 then
          midx matrix (maxRowInCol matrix rows (left + (right - left) / 2) : Int)
            (left + (right - left) / 2 + 1)
        else -1
      if midx matrix (maxRowInCol matrix rows (left + (right - left) / 2) : Int)
            (left + (right - left) / 2) ≥ left_val ∧
          midx matrix (maxRowInCol matrix rows (left + (right - left) / 2) : Int)
            (left + (right - left) / 2) ≥ right_val then
        [(maxRowInCol matrix rows (left + (right - left) / 2) : Int),
          left + (right - left) / 2]
      else if left_val > midx matrix
          (maxRowInCol matrix rows (left + (right - left) / 2) : Int)
          (left + (right - left) / 2) then
        find_peak_2d_loop matrix rows cols fuel left (left + (right - left) / 2 - 1)
      else
        find_peak_2d_loop matrix rows cols fuel (left + (right - left) / 2 + 1) right
    else [-1, -1]

/-- `PeakFinding.find_peak_2d`; the unguarded `len(matrix[0])` raises on an
empty matrix, modelled by `none`. -/
def find_peak_2d (matrix : List (List Int)) : Option (List Int) :=
  match matrix with
  | [] => none
  | row0 :: _ =>
    some (find_peak_2d_loop matrix matrix.length row0.length
      (row0.length + 1) 0 ((row0.length : Int) - 1))

/-! ## Sliding window (src/examples/python/sliding_window.py) -/

/-- `SlidingWindow.max_sum_subarray`: guard `len(arr) < k` returns the
sentinel `-1`; otherwise slide a fixed window, tracking the running and best
sums. -/
def max_sum_subarray (arr : List Int) (k : Nat) : Int :=
  if arr.length < k then -1
  else
    ((List.range' k (arr.length - k)).foldl
      (fun p i =>
        (p.1 + arr.getD i 0 - arr.getD (i - k) 0,
         max p.2 (p.1 + arr.getD i 0 - arr.getD (i - k) 0)))
      ((arr.take k).sum, (arr.take k).sum)).2

/-! ## Merge Intervals family (src/examples/python/merge_intervals.py) -/

/-- Sweep of `merge_intervals`: `last` is the interval `merged[-1]` currently
being grown; an overlapping interval is absorbed by updating the end to the
max, a non-overlapping one freezes `last` into the output. -/
def merge_intervals_loop (last : Int × Int) :
    List (Int × Int) → List (Int × Int)
  | [] => [last]
  | c :: cs =>
    if c.1 ≤ last.2 then merge_intervals_loop (last.1, max last.2 c.2) cs
    else last :: merge_intervals_loop c cs

/-- `merge_intervals`: sort by start (Python's stable `sort(key=lambda x:
x[0])`, modelled by a stable insertion sort on the first component), then
sweep. -/
def merge_intervals (intervals : List (Int × Int)) : List (Int × Int) :=
  match List.insertionSort (fun a b => a.1 ≤ b.1) intervals with
  | [] => []
  | h :: t => merge_intervals_loop h t

/-- Loop of `min_meeting_rooms`: two pointers over the sorted start and end
lists, modelled by consuming list heads; reading `ends[end_ptr]` past the end
of the list raises `IndexError`, modelled by `none`. -/
def min_meeting_rooms_loop :
    Nat → List Int → List Int → Int → Int → Option Int
  | 0, _, _, _, maxRooms => some maxRooms
  | fuel + 1, starts, ends, rooms, maxRooms =>
    match starts with
    | [] => some maxRooms
    | s :: ss =>
      match ends with
      | [] => none
      | e :: es =>
        if s < e then
          min_meeting_rooms_loop fuel ss (e :: es) (rooms + 1)
            (max maxRooms (rooms + 1))
        else
          min_meeting_rooms_loop fuel (s :: ss) es (rooms - 1) maxRooms

/-- `min_meeting_rooms`: sorted start/end event lists scanned by two
pointers.  Each iteration consumes a start or an end, so `2n + 1` fuel
covers every terminating run. -/
def min_meeting_rooms (intervals : List (Int × Int)) : Option Int :=
  if intervals = [] then some 0
  else
    min_meeting_rooms_loop (2 * intervals.length + 1)
      (List.insertionSort (· ≤ ·) (intervals.map Prod.fst))
      (List.insertionSort (· ≤ ·) (intervals.map Prod.snd)) 0 0

/-! ## Two pointers (src/examples/python/two_pointers.py) -/

/-- Python's simultaneous swap `nums[i], nums[j] = nums[j], nums[i]`. -/
def list_swap (l : List Int) (i j : Nat) : List Int :=
  (l.set i (l.getD j 0)).set j (l.getD i 0)

/-- Loop of `sort_colors` (Dutch flag): `left`/`current` never go negative,
`right` can reach `-1`, hence the `Int` bound. -/
def sort_colors_loop :
    Nat → List Int → Nat → Nat → Int → List Int
  | 0, nums, _, _, _ => nums
  | fuel + 1, nums, left, current, right =>
    if (current : Int) ≤ right then
      if nums.getD current 0 = 0 then
        sort_colors_loop fuel (list_swap nums left current) (left + 1)
          (current + 1) right
      else if nums.getD current 0 = 2 then
        sort_colors_loop fuel (list_swap nums current right.toNat) left
          current (right - 1)
      else
        sort_colors_loop fuel nums left (current + 1) right
    else nums

/-- `TwoPointers.sort_colors`, returning the final state of the in-place
array. -/
def sort_colors (nums : List Int) : List Int :=
  sort_colors_loop (nums.length + 1) nums 0 0 ((nums.length : Int) - 1)

/-! ## Backtracking word search (src/examples/python/subsets_backtracking.py) -/

/-- Reading `board[row][col]` after the bounds checks of `backtrack`. -/
def getCell (board : List (List Char)) (row col : Int) : Char :=
  (board.getD row.toNat []).getD col.toNat ' '

/-- Writing `board[row][col] = ch`. -/
def setCell (board : List (List Char)) (row col : Int) (ch : Char) :
    List (List Char) :=
  board.set row.toNat ((board.getD row.toNat []).set col.toNat ch)

/-- The `backtrack` helper of `word_search`: `rest` is the still-unmatched
suffix of the word (Python's `word[index:]`).  Returns the result together
with the final board state, so the in-place mutation and restoration are
observable. -/
def word_search_backtrack (rows cols : Nat) :
    List Char → List (List Char) → Int → Int → Bool × List (List Char)
  | [], board, _, _ => (true, board)
  | ch :: rest, board, row, col =>
    if row < 0 ∨ (rows : Int) ≤ row ∨ col < 0 ∨ (cols : Int) ≤ col ∨
        getCell board row col ≠ ch then
      (false, board)
    else
      let temp := getCell board row col
      let b0 := setCell board row col '#'
      let r1 := word_search_backtrack rows cols rest b0 (row + 1) col
      if r1.1 then (true, setCell r1.2 row col temp)
      else
        let r2 := word_search_backtrack rows cols rest r1.2 (row - 1) col
        if r2.1 then (true, setCell r2.2 row col temp)
        else
          let r3 := word_search_backtrack rows cols rest r2.2 row (col + 1)
          if r3.1 then (true, setCell r3.2 row col temp)
          else
            let r4 := word_search_backtrack rows cols rest r3.2 row (col - 1)
            (r4.1, setCell r4.2 row col temp)

/-- The scan of `word_search` over all starting cells, threading the board
and returning early on success. -/
def word_search_scan (rows cols : Nat) (word : List Char) :
    List (Nat × Nat) → List (List Char) → Bool × List (List Char)
  | [], board => (false, board)
  | c :: cells, board =>
    let r := word_search_backtrack rows cols word board (c.1 : Int) (c.2 : Int)
    if r.1 then (true, r.2) else word_search_scan rows cols word cells r.2

/-- `word_search`; the unguarded `len(board[0])` raises on an empty board,
modelled by `none`.  The result carries the final board state. -/
def word_search (board : List (List Char)) (word : List Char) :
    Option (Bool × List (List Char)) :=
  match board with
  | [] => none
  | row0 :: _ =>
    some (word_search_scan board.length row0.length word
      ((List.range board.length).flatMap
        (fun i => (List.range row0.length).map (fun j => (i, j)))) board)

/-! ## Fast and slow pointers (src/examples/python/fast_slow_pointers.py) -/

/-- Traversal sequence of a linked chain: the arena holds `n` nodes, `next`
is the successor field, and `tau i` is the node reached from the head in `i`
steps (`none` once the chain has ended). -/
def tau (n : Nat) (next : Fin n → Option (Fin n)) (head : Option (Fin n)) :
    Nat → Option (Fin n)
  | 0 => head
  | i + 1 => (tau n next head i).bind next

/-- Loop of `has_cycle`: `while fast and fast.next`, advance the cursors at
rates 1 and 2 and compare; `none` marks fuel exhaustion (the embedding's
divergence marker, never reached from the entry point). -/
def has_cycle_loop (n : Nat) (next : Fin n → Option (Fin n)) :
    Nat → Option (Fin n) → Option (Fin n) → Option Bool
  | 0, _, _ => none
  | fuel + 1, slow, fast =>
    match fast with
    | none => some false
    | some f =>
      match next f with
      | none => some false
      | some f1 =>
        if slow.bind next = next f1 then some true
        else has_cycle_loop n next fuel (slow.bind next) (next f1)

/-- `has_cycle`; the `n + 1` fuel exceeds the `μ + λ ≤ n` bound on the index
of the first tortoise/hare meeting, and the `n/2`-step bound of an acyclic
walk. -/
def has_cycle (n : Nat) (next : Fin n → Option (Fin n))
    (head : Option (Fin n)) : Option Bool :=
  match head with
  | none => some false
  | some h =>
    match next h with
    | none => some false
    | some _ => has_cycle_loop n next (n + 1) (some h) (some h)

/-- Phase 1 of `find_cycle_start` (the `while ... else` loop): returns the
meeting node on a break, or `none` (wrapped) when the loop ends normally,
which the Python code answers with `return None`. -/
def find_cycle_start_meet (n : Nat) (next : Fin n → Option (Fin n)) :
    Nat → Option (Fin n) → Option (Fin n) → Option (Option (Fin n))
  | 0, _, _ => none
  | fuel + 1, slow, fast =>
    match fast with
    | none => some none
    | some f =>
      match next f with
      | none => some none
      | some f1 =>
        if slow.bind next = next f1 then some (slow.bind next)
        else find_cycle_start_meet n next fuel (slow.bind next) (next f1)

/-- Phase 2 of `find_cycle_start`: restart one cursor at the head and advance
both at rate 1 until they meet. -/
def find_cycle_start_phase2 (n : Nat) (next : Fin n → Option (Fin n)) :
    Nat → Option (Fin n) → Option (Fin n) → Option (Option (Fin n))
  | 0, _, _ => none
  | fuel + 1, current, slow =>
    if current = slow then some current
    else find_cycle_start_phase2 n next fuel (current.bind next)
      (slow.bind next)

/-- `find_cycle_start`; result `some none` models the Python `return None`,
`some (some k)` the returned cycle-start node. -/
def find_cycle_start (n : Nat) (next : Fin n → Option (Fin n))
    (head : Option (Fin n)) : Option (Option (Fin n)) :=
  match head with
  | none => some none
  | some h =>
    match next h with
    | none => some none
    | some _ =>
      match find_cycle_start_meet n next (n + 1) (some h) (some h) with
      | none => none
      | some none => some none
      | some (some m) =>
        find_cycle_start_phase2 n next (n + 1) (some h) (some m)

/-! ## Graph traversal (src/examples/python/graph_traversal.py) -/

/-- The `for neighbor in graph[start]` body of `dfs_recursive`: process the
neighbours in order with the shared, evolving visited set, skipping the ones
already visited at their turn. -/
def dfs_nbrs {n : Nat}
    (visit : Fin n → Finset (Fin n) → Option (List (Fin n) × Finset (Fin n))) :
    List (Fin n) → Finset (Fin n) → Option (List (Fin n) × Finset (Fin n))
  | [], visited => some ([], visited)
  | nb :: rest, visited =>
    if nb ∈ visited then dfs_nbrs visit rest visited
    else
      match visit nb visited with
      | none => none
      | some (o1, v1) =>
        match dfs_nbrs visit rest v1 with
        | none => none
        | some (o2, v2) => some (o1 ++ o2, v2)

/-- `GraphTraversal.dfs_recursive` on one vertex: add it to the visited set,
start the result with it, and traverse the unvisited neighbours recursively.
The fuel bounds the recursion depth; each level adds a vertex to the visited
set, so `n + 1` suffices from an empty visited set. -/
def dfs_visit {n : Nat} (adj : Fin n → List (Fin n)) :
    Nat → Fin n → Finset (Fin n) → Option (List (Fin n) × Finset (Fin n))
  | 0, _, _ => none
  | fuel + 1, v, visited =>
    match dfs_nbrs (dfs_visit adj fuel) (adj v) (insert v visited) with
    | none => none
    | some (o, v1) => some (v :: o, v1)

/-- `GraphTraversal.dfs_recursive` from a start vertex with a fresh visited
set. -/
def dfs_recursive {n : Nat} (adj : Fin n → List (Fin n)) (start : Fin n) :
    Option (List (Fin n)) :=
  (dfs_visit adj (n + 1) start ∅).map Prod.fst

/-- Loop of `GraphTraversal.dfs_iterative`: pop, skip if visited, otherwise
visit and push the still-unvisited neighbours in reversed order (so the head
of the stack is the first neighbour). -/
def dfs_iter_loop {n : Nat} (adj : Fin n → List (Fin n)) :
    Nat → List (Fin n) → Finset (Fin n) → List (Fin n) →
      Option (List (Fin n))
  | _, [], _, acc => some acc
  | 0, _ :: _, _, _ => none
  | fuel + 1, v :: rest, visited, acc =>
    if v ∈ visited then dfs_iter_loop adj fuel rest visited acc
    else
      dfs_iter_loop adj fuel
        (((adj v).filter (fun nb => nb ∉ insert v visited)) ++ rest)
        (insert v visited) (acc ++ [v])

/-- `GraphTraversal.dfs_iterative`.  Every iteration either pops a visited
vertex or marks a new one and pushes at most its neighbour list, so the
stated fuel exceeds the total number of iterations. -/
def dfs_iterative {n : Nat} (adj : Fin n → List (Fin n)) (start : Fin n) :
    Option (List (Fin n)) :=
  dfs_iter_loop adj (2 + n + Finset.univ.sum (fun v => (adj v).length))
    [start] ∅ []

/-! ## Counting helpers for the meeting-rooms specification -/

/-- Number of elements of `l` that are `≤ t`. -/
def countLe (l : List Int) (t : Int) : Nat :=
  l.countP (fun x => x ≤ t)

/-- Number of intervals occupying time `t` under half-open `[start, end)`
semantics: a meeting ending exactly at `t` has already freed its room. -/
def occupancy (intervals : List (Int × Int)) (t : Int) : Nat :=
  intervals.countP (fun p => p.1 ≤ t ∧ t < p.2)

/-! ## Shared helper lemmas -/

/-- Monotonicity of `getD` reads over a sorted list. -/
theorem sorted_getD_mono {l : List Int} (hs : List.Sorted (· ≤ ·) l)
    {i j : Nat} (hij : i ≤ j) (hj : j < l.length) : l.getD i 0 ≤ l.getD j 0 := by
  rcases Nat.lt_or_ge i j with h | h
  · rw [List.getD_eq_getElem l 0 (lt_trans h hj), List.getD_eq_getElem l 0 hj]
    exact List.Sorted.rel_get_of_lt hs h
  · have : i = j := le_antisymm hij h
    subst this
    exact le_refl _

/-! ## Claim C10: sliding-window sentinel -/

/-- Claim C10: for every array `arr` and window size `k` with
`len(arr) < k`, `max_sum_subarray` returns the sentinel `-1` (and never
raises); and the sentinel is ambiguous at the interface, since `-1` is also
the genuine maximum window sum of `[-1]` with `k = 1`, which does not hit
the guard. -/
theorem C10_max_sum_subarray_sentinel :
    (∀ (arr : List Int) (k : Nat), arr.length < k → max_sum_subarray arr k = -1) ∧
    max_sum_subarray [-1] 1 = -1 ∧ ¬ (([-1] : List Int).length < 1) := by
  refine ⟨fun arr k h => ?_, by decide, by decide⟩
  simp [max_sum_subarray, h]

/-- Witness for C10 at the concrete input `arr = [5, 2]`, `k = 3`. -/
theorem C10_max_sum_subarray_sentinel_witness :
    ([5, 2] : List Int).length < 3 ∧ max_sum_subarray [5, 2] 3 = -1 :=
  ⟨by decide, C10_max_sum_subarray_sentinel.1 [5, 2] 3 (by decide)⟩

/-! ## Claim C2: empty input in the Binary Search family -/

/-- Counterexample to claim C2 as stated: `find_minimum_rotated` on the
empty list does not return a sentinel value; it evaluates `nums[left]` with
`left = 0` on an empty list, raising `IndexError` (modelled by `none`). -/
theorem C2_counterexample : find_minimum_rotated [] = none := by decide

/-- Amended claim C2: on an empty input, `binary_search`,
`find_first_occurrence` and `find_last_occurrence` return the sentinel `-1`,
`search_insert_position` returns the empty insertion index `0`,
`search_rotated_array` returns `-1`, and `search_2d_matrix` returns `False`
for both the empty and the zero-column matrix, as does `find_peak_2d`'s
sentinel `[-1, -1]` for a zero-column matrix — but `find_minimum_rotated`
on an empty list and `find_peak_2d` on an empty matrix raise `IndexError`
(modelled by `none`) instead of returning a sentinel. -/
theorem C2_empty_input_behaviour :
    (∀ t : Int,
      binary_search [] t = -1 ∧
      find_first_occurrence [] t = -1 ∧
      find_last_occurrence [] t = -1 ∧
      search_insert_position [] t = 0 ∧
      search_rotated_array [] t = -1 ∧
      search_2d_matrix [] t = false ∧
      search_2d_matrix [[]] t = false) ∧
    find_minimum_rotated [] = none ∧
    find_peak_2d [] = none ∧
    find_peak_2d [[]] = some [-1, -1] := by
  refine ⟨fun t => ⟨?_, ?_, ?_, ?_, ?_, ?_, ?_⟩, by decide, by decide, by decide⟩
  · norm_num [binary_search, binary_search_loop]
  · norm_num [find_first_occurrence, find_first_occurrence_loop]
  · norm_num [find_last_occurrence, find_last_occurrence_loop]
  · norm_num [search_insert_position, search_insert_position_loop]
  · norm_num [search_rotated_array, search_rotated_array_loop]
  · norm_num [search_2d_matrix]
  · norm_num [search_2d_matrix]

/-! ## Claim C7: search_insert_position -/

/-- Loop invariant of `search_insert_position_loop`: everything strictly
before `left` is `< target`, everything from `right` on is `≥ target`, and
the loop converges to their common boundary. -/
theorem sip_loop_spec (nums : List Int) (target : Int)
    (hs : List.Sorted (· ≤ ·) nums) :
    ∀ (fuel l r : Nat), r ≤ nums.length → l ≤ r → r - l < fuel →
      (∀ i < l, nums.getD i 0 < target) →
      (∀ i, r ≤ i → i < nums.length → target ≤ nums.getD i 0) →
      l ≤ search_insert_position_loop nums target fuel l r ∧
      search_insert_position_loop nums target fuel l r ≤ r ∧
      (∀ i < search_insert_position_loop nums target fuel l r,
        nums.getD i 0 < target) ∧
      (∀ i, search_insert_position_loop nums target fuel l r ≤ i →
        i < nums.length → target ≤ nums.getD i 0) := by
  intro fuel
  induction fuel with
  | zero => intro l r _ hlr hfuel _ _; omega
  | succ fuel ih =>
    intro l r hr hlr hfuel hlo hhi
    by_cases hcond : l < r
    · have hm1 : l ≤ l + (r - l) / 2 := Nat.le_add_right _ _
      have hm2 : l + (r - l) / 2 < r := by omega
      rw [search_insert_position_loop, if_pos hcond]
      by_cases hmid : nums.getD (l + (r - l) / 2) 0 < target
      · rw [if_pos hmid]
        refine (ih (l + (r - l) / 2 + 1) r hr (by omega) (by omega) ?_ hhi).imp
          (fun h => by omega) (fun h => h)
        intro i hi
        rcases Nat.lt_or_ge i l with h | h
        · exact hlo i h
        · exact lt_of_le_of_lt
            (sorted_getD_mono hs (by omega) (by omega)) hmid
      · rw [if_neg hmid]
        push_neg at hmid
        refine (ih l (l + (r - l) / 2) (by omega) (by omega) (by omega) hlo ?_).imp
          (fun h => h) (fun h => ⟨by omega, h.2⟩)
        intro i hi hilen
        exact le_trans hmid (sorted_getD_mono hs hi hilen)
    · rw [search_insert_position_loop, if_neg hcond]
      have : l = r := by omega
      exact ⟨le_refl _, by omega, hlo, by rw [this]; exact hhi⟩

/-- Claim C7: on a sorted list, `search_insert_position` returns the
leftmost insertion index `k`: every element of `S[0..k)` is strictly less
than `v` and every element of `S[k..)` is at least `v`. -/
theorem C7_search_insert_position (nums : List Int) (target : Int)
    (hs : List.Sorted (· ≤ ·) nums) :
    search_insert_position nums target ≤ nums.length ∧
    (∀ i < search_insert_position nums target, nums.getD i 0 < target) ∧
    (∀ i, search_insert_position nums target ≤ i → i < nums.length →
      target ≤ nums.getD i 0) := by
  have h := sip_loop_spec nums target hs (nums.length + 1) 0 nums.length
    (le_refl _) (Nat.zero_le _) (by omega) (fun i hi => by omega)
    (fun i hi hlen => by omega)
  exact ⟨h.2.1, h.2.2.1, h.2.2.2⟩

/-- Witness for C7 at the sorted list `[1, 3, 5, 6]` with target `2`. -/
theorem C7_search_insert_position_witness :
    search_insert_position [1, 3, 5, 6] 2 ≤ ([1, 3, 5, 6] : List Int).length ∧
    (∀ i < search_insert_position [1, 3, 5, 6] 2,
      ([1, 3, 5, 6] : List Int).getD i 0 < 2) ∧
    (∀ i, search_insert_position [1, 3, 5, 6] 2 ≤ i →
      i < ([1, 3, 5, 6] : List Int).length →
      2 ≤ ([1, 3, 5, 6] : List Int).getD i 0) :=
  C7_search_insert_position [1, 3, 5, 6] 2 (by decide)

/-! ## Claim C1: binary search, first and last occurrence -/

/-- Invariant of `binary_search_loop`: if the target occurs in `[l, r]`, the
loop returns an index holding the target. -/
theorem bs_loop_finds (arr : List Int) (target : Int)
    (hs : List.Sorted (· ≤ ·) arr) :
    ∀ (fuel : Nat) (l r : Int), 0 ≤ l → r < (arr.length : Int) →
      (r - l + 1).toNat < fuel →
      (∃ i : Nat, l ≤ (i : Int) ∧ (i : Int) ≤ r ∧ arr.getD i 0 = target) →
      ∃ j : Nat, (j : Int) = binary_search_loop arr target fuel l r ∧
        j < arr.length ∧ arr.getD j 0 = target := by
  intro fuel
  induction fuel with
  | zero => intro l r _ _ hfuel hex; omega
  | succ fuel ih =>
    intro l r hl hr hfuel hex
    obtain ⟨i, hil, hir, hiv⟩ := hex
    have hlr : l ≤ r := le_trans hil hir
    have hm0 : 0 ≤ l + (r - l) / 2 := by omega
    have hm2 : l + (r - l) / 2 ≤ r := by omega
    have hMlt : (l + (r - l) / 2).toNat < arr.length := by omega
    have hMeq : (((l + (r - l) / 2).toNat : Nat) : Int) = l + (r - l) / 2 :=
      Int.toNat_of_nonneg hm0
    simp only [binary_search_loop]
    rw [if_pos hlr]
    by_cases he : idx arr (l + (r - l) / 2) = target
    · rw [if_pos he]
      exact ⟨(l + (r - l) / 2).toNat, hMeq, hMlt, he⟩
    · rw [if_neg he]
      have he' : arr.getD (l + (r - l) / 2).toNat 0 ≠ target := he
      by_cases hlt : idx arr (l + (r - l) / 2) < target
      · rw [if_pos hlt]
        have hlt' : arr.getD (l + (r - l) / 2).toNat 0 < target := hlt
        refine ih (l + (r - l) / 2 + 1) r (by omega) hr (by omega)
          ⟨i, ?_, hir, hiv⟩
        by_contra hcon
        push_neg at hcon
        have := @sorted_getD_mono arr hs i ((l + (r - l) / 2).toNat)
          (by omega) hMlt
        omega
      · rw [if_neg hlt]
        have hnlt : ¬ (arr.getD (l + (r - l) / 2).toNat 0 < target) := hlt
        have hgt' : target < arr.getD (l + (r - l) / 2).toNat 0 := by omega
        refine ih l (l + (r - l) / 2 - 1) hl (by omega) (by omega)
          ⟨i, hil, ?_, hiv⟩
        by_contra hcon
        push_neg at hcon
        have := @sorted_getD_mono arr hs ((l + (r - l) / 2).toNat) i
          (by omega) (by omega)
        omega

/-- Invariant of `find_first_occurrence_loop`: with `F` the least index
holding the target, the loop returns `F`; the disjunction says either `F`
is still inside the live window or it has already been recorded. -/
theorem ffo_loop_spec (arr : List Int) (target : Int)
    (hs : List.Sorted (· ≤ ·) arr) (F : Nat)
    (hF1 : F < arr.length) (hF2 : arr.getD F 0 = target)
    (hF3 : ∀ i, i < F → arr.getD i 0 ≠ target) :
    ∀ (fuel : Nat) (l r res : Int), 0 ≤ l → r < (arr.length : Int) →
      (r - l + 1).toNat < fuel →
      ((l ≤ (F : Int) ∧ (F : Int) ≤ r) ∨ (res = (F : Int) ∧ r < (F : Int))) →
      find_first_occurrence_loop arr target fuel l r res = (F : Int) := by
  intro fuel
  induction fuel with
  | zero => intro l r res _ _ hfuel _; omega
  | succ fuel ih =>
    intro l r res hl hr hfuel hJ
    by_cases hlr : l ≤ r
    · have hm0 : 0 ≤ l + (r - l) / 2 := by omega
      have hm1 : l ≤ l + (r - l) / 2 := by omega
      have hm2 : l + (r - l) / 2 ≤ r := by omega
      have hMlt : (l + (r - l) / 2).toNat < arr.length := by omega
      have hMeq : (((l + (r - l) / 2).toNat : Nat) : Int) = l + (r - l) / 2 :=
        Int.toNat_of_nonneg hm0
      simp only [find_first_occurrence_loop]
      rw [if_pos hlr]
      by_cases he : idx arr (l + (r - l) / 2) = target
      · rw [if_pos he]
        have he' : arr.getD (l + (r - l) / 2).toNat 0 = target := he
        have hFM : F ≤ (l + (r - l) / 2).toNat := by
          by_contra hcon
          exact hF3 _ (by omega) he'
        have hJleft : l ≤ (F : Int) ∧ (F : Int) ≤ r := by
          rcases hJ with h | h
          · exact h
          · exact absurd he' (hF3 _ (by omega))
        rcases Nat.eq_or_lt_of_le hFM with hEq | hLt
        · exact ih l (l + (r - l) / 2 - 1) (l + (r - l) / 2) hl (by omega)
            (by omega) (Or.inr (by omega))
        · exact ih l (l + (r - l) / 2 - 1) (l + (r - l) / 2) hl (by omega)
            (by omega) (Or.inl (by omega))
      · rw [if_neg he]
        have he' : arr.getD (l + (r - l) / 2).toNat 0 ≠ target := he
        by_cases hlt : idx arr (l + (r - l) / 2) < target
        · rw [if_pos hlt]
          have hlt' : arr.getD (l + (r - l) / 2).toNat 0 < target := hlt
          have hFM : (l + (r - l) / 2).toNat < F := by
            by_contra hcon
            have := @sorted_getD_mono arr hs F ((l + (r - l) / 2).toNat)
              (by omega) hMlt
            omega
          refine ih (l + (r - l) / 2 + 1) r res (by omega) hr (by omega) ?_
          rcases hJ with h | h
          · exact Or.inl (by omega)
          · exact Or.inr h
        · rw [if_neg hlt]
          have hnlt : ¬ (arr.getD (l + (r - l) / 2).toNat 0 < target) := hlt
          have hgt' : target < arr.getD (l + (r - l) / 2).toNat 0 := by omega
          have hFM : F < (l + (r - l) / 2).toNat := by
            by_contra hcon
            have := @sorted_getD_mono arr hs ((l + (r - l) / 2).toNat) F
              (by omega) hF1
            omega
          refine ih l (l + (r - l) / 2 - 1) res hl (by omega) (by omega) ?_
          rcases hJ with h | h
          · exact Or.inl (by omega)
          · exact Or.inr (by omega)
    · simp only [find_first_occurrence_loop]
      rw [if_neg hlr]
      rcases hJ with h | h
      · omega
      · exact h.1

/-- Invariant of `find_last_occurrence_loop`: with `G` the greatest index
holding the target, the loop returns `G`. -/
theorem flo_loop_spec (arr : List Int) (target : Int)
    (hs : List.Sorted (· ≤ ·) arr) (G : Nat)
    (hG1 : G < arr.length) (hG2 : arr.getD G 0 = target)
    (hG3 : ∀ i, G < i → i < arr.length → arr.getD i 0 ≠ target) :
    ∀ (fuel : Nat) (l r res : Int), 0 ≤ l → r < (arr.length : Int) →
      (r - l + 1).toNat < fuel →
      ((l ≤ (G : Int) ∧ (G : Int) ≤ r) ∨ (res = (G : Int) ∧ (G : Int) < l)) →
      find_last_occurrence_loop arr target fuel l r res = (G : Int) := by
  intro fuel
  induction fuel with
  | zero => intro l r res _ _ hfuel _; omega
  | succ fuel ih =>
    intro l r res hl hr hfuel hJ
    by_cases hlr : l ≤ r
    · have hm0 : 0 ≤ l + (r - l) / 2 := by omega
      have hm1 : l ≤ l + (r - l) / 2 := by omega
      have hm2 : l + (r - l) / 2 ≤ r := by omega
      have hMlt : (l + (r - l) / 2).toNat < arr.length := by omega
      have hMeq : (((l + (r - l) / 2).toNat : Nat) : Int) = l + (r - l) / 2 :=
        Int.toNat_of_nonneg hm0
      simp only [find_last_occurrence_loop]
      rw [if_pos hlr]
      by_cases he : idx arr (l + (r - l) / 2) = target
      · rw [if_pos he]
        have he' : arr.getD (l + (r - l) / 2).toNat 0 = target := he
        have hFM : (l + (r - l) / 2).toNat ≤ G := by
          by_contra hcon
          exact hG3 _ (by omega) hMlt he'
        have hJleft : l ≤ (G : Int) ∧ (G : Int) ≤ r := by
          rcases hJ with h | h
          · exact h
          · exact absurd he' (hG3 _ (by omega) hMlt)
        rcases Nat.eq_or_lt_of_le hFM with hEq | hLt
        · exact ih (l + (r - l) / 2 + 1) r (l + (r - l) / 2) (by omega) hr
            (by omega) (Or.inr (by omega))
        · exact ih (l + (r - l) / 2 + 1) r (l + (r - l) / 2) (by omega) hr
            (by omega) (Or.inl (by omega))
      · rw [if_neg he]
        have he' : arr.getD (l + (r - l) / 2).toNat 0 ≠ target := he
        by_cases hlt : idx arr (l + (r - l) / 2) < target
        · rw [if_pos hlt]
          have hlt' : arr.getD (l + (r - l) / 2).toNat 0 < target := hlt
          have hFM : (l + (r - l) / 2).toNat < G := by
            by_contra hcon
            have := @sorted_getD_mono arr hs G ((l + (r - l) / 2).toNat)
              (by omega) hMlt
            omega
          refine ih (l + (r - l) / 2 + 1) r res (by omega) hr (by omega) ?_
          rcases hJ with h | h
          · exact Or.inl (by omega)
          · omega
        · rw [if_neg hlt]
          have hnlt : ¬ (arr.getD (l + (r - l) / 2).toNat 0 < target) := hlt
          have hgt' : target < arr.getD (l + (r - l) / 2).toNat 0 := by omega
          have hFM : G < (l + (r - l) / 2).toNat := by
            by_contra hcon
            have := @sorted_getD_mono arr hs ((l + (r - l) / 2).toNat) G
              (by omega) hG1
            omega
          refine ih l (l + (r - l) / 2 - 1) res hl (by omega) (by omega) ?_
          rcases hJ with h | h
          · exact Or.inl (by omega)
          · exact Or.inr h
    · simp only [find_last_occurrence_loop]
      rw [if_neg hlr]
      rcases hJ with h | h
      · omega
      · exact h.1

/-- Claim C1: on a sorted list containing the value `v`, `binary_search`
returns some valid index holding `v`, `find_first_occurrence` returns the
minimal such index and `find_last_occurrence` the maximal one. -/
theorem C1_binary_search_family (arr : List Int) (v : Int)
    (hs : List.Sorted (· ≤ ·) arr)
    (hp : ∃ i, i < arr.length ∧ arr.getD i 0 = v) :
    (∃ j : Nat, (j : Int) = binary_search arr v ∧ j < arr.length ∧
      arr.getD j 0 = v) ∧
    (∃ j : Nat, (j : Int) = find_first_occurrence arr v ∧ j < arr.length ∧
      arr.getD j 0 = v ∧ ∀ i, i < j → arr.getD i 0 ≠ v) ∧
    (∃ j : Nat, (j : Int) = find_last_occurrence arr v ∧ j < arr.length ∧
      arr.getD j 0 = v ∧ ∀ i, j < i → i < arr.length → arr.getD i 0 ≠ v) := by
  classical
  obtain ⟨i0, hi0, hv0⟩ := hp
  refine ⟨?_, ?_, ?_⟩
  · exact bs_loop_finds arr v hs (arr.length + 1) 0 ((arr.length : Int) - 1)
      (by omega) (by omega) (by omega) ⟨i0, by omega, by omega, hv0⟩
  · have hex : ∃ m, m < arr.length ∧ arr.getD m 0 = v := ⟨i0, hi0, hv0⟩
    have hF := Nat.find_spec hex
    have hF3 : ∀ i, i < Nat.find hex → arr.getD i 0 ≠ v := fun i hi hcon =>
      Nat.find_min hex hi ⟨lt_trans hi hF.1, hcon⟩
    refine ⟨Nat.find hex, ?_, hF.1, hF.2, hF3⟩
    exact (ffo_loop_spec arr v hs (Nat.find hex) hF.1 hF.2 hF3
      (arr.length + 1) 0 ((arr.length : Int) - 1) (-1) (by omega) (by omega)
      (by omega) (Or.inl (by omega))).symm
  · have hspec : (fun m => arr.getD m 0 = v)
        (Nat.findGreatest (fun m => arr.getD m 0 = v) (arr.length - 1)) :=
      @Nat.findGreatest_spec i0 (fun m => arr.getD m 0 = v) _ (arr.length - 1)
        (by omega) hv0
    have hG2 : arr.getD (Nat.findGreatest (fun m => arr.getD m 0 = v)
        (arr.length - 1)) 0 = v := hspec
    have hG1 : Nat.findGreatest (fun m => arr.getD m 0 = v)
        (arr.length - 1) < arr.length :=
      lt_of_le_of_lt (Nat.findGreatest_le _) (by omega)
    have hG3 : ∀ i, Nat.findGreatest (fun m => arr.getD m 0 = v)
        (arr.length - 1) < i → i < arr.length → arr.getD i 0 ≠ v :=
      fun i hgi hilen => Nat.findGreatest_is_greatest hgi (by omega)
    refine ⟨Nat.findGreatest (fun m => arr.getD m 0 = v) (arr.length - 1),
      ?_, hG1, hG2, hG3⟩
    exact (flo_loop_spec arr v hs _ hG1 hG2 hG3
      (arr.length + 1) 0 ((arr.length : Int) - 1) (-1) (by omega) (by omega)
      (by omega) (Or.inl (by omega))).symm

/-- Witness for C1 at `arr = [1, 3, 5, 5, 5, 7, 9, 11]`, `v = 5` (first
occurrence 2, last occurrence 4). -/
theorem C1_binary_search_family_witness :
    (∃ j : Nat, (j : Int) = binary_search [1, 3, 5, 5, 5, 7, 9, 11] 5 ∧
      j < ([1, 3, 5, 5, 5, 7, 9, 11] : List Int).length ∧
      ([1, 3, 5, 5, 5, 7, 9, 11] : List Int).getD j 0 = 5) ∧
    (∃ j : Nat, (j : Int) = find_first_occurrence [1, 3, 5, 5, 5, 7, 9, 11] 5 ∧
      j < ([1, 3, 5, 5, 5, 7, 9, 11] : List Int).length ∧
      ([1, 3, 5, 5, 5, 7, 9, 11] : List Int).getD j 0 = 5 ∧
      ∀ i, i < j → ([1, 3, 5, 5, 5, 7, 9, 11] : List Int).getD i 0 ≠ 5) ∧
    (∃ j : Nat, (j : Int) = find_last_occurrence [1, 3, 5, 5, 5, 7, 9, 11] 5 ∧
      j < ([1, 3, 5, 5, 5, 7, 9, 11] : List Int).length ∧
      ([1, 3, 5, 5, 5, 7, 9, 11] : List Int).getD j 0 = 5 ∧
      ∀ i, j < i → i < ([1, 3, 5, 5, 5, 7, 9, 11] : List Int).length →
        ([1, 3, 5, 5, 5, 7, 9, 11] : List Int).getD i 0 ≠ 5) :=
  C1_binary_search_family [1, 3, 5, 5, 5, 7, 9, 11] 5 (by decide)
    ⟨2, by decide, by decide⟩

/-! ## Claim C4: merge_intervals is idempotent -/

/-- The sweep's output starts with the running interval's start, and its end
only grows. -/
theorem merge_intervals_loop_head :
    ∀ (rest : List (Int × Int)) (last : Int × Int),
      ∃ e tl, merge_intervals_loop last rest = (last.1, e) :: tl ∧
        last.2 ≤ e := by
  intro rest
  induction rest with
  | nil => exact fun last => ⟨last.2, [], rfl, le_refl _⟩
  | cons c cs ih =>
    intro last
    by_cases hc : c.1 ≤ last.2
    · obtain ⟨e, tl, heq, hle⟩ := ih (last.1, max last.2 c.2)
      exact ⟨e, tl, by simp only [merge_intervals_loop, if_pos hc]; exact heq,
        le_trans (le_max_left _ _) hle⟩
    · exact ⟨last.2, merge_intervals_loop c cs,
        by simp only [merge_intervals_loop, if_neg hc], le_refl _⟩

/-- Adjacent output intervals of the sweep are separated by a gap: each
frozen interval ends strictly before the next one starts. -/
theorem merge_intervals_loop_gap :
    ∀ (rest : List (Int × Int)) (last : Int × Int),
      List.Chain' (fun a b => a.2 < b.1) (merge_intervals_loop last rest) := by
  intro rest
  induction rest with
  | nil => exact fun last => List.chain'_singleton _
  | cons c cs ih =>
    intro last
    by_cases hc : c.1 ≤ last.2
    · simpa only [merge_intervals_loop, if_pos hc] using ih (last.1, max last.2 c.2)
    · simp only [merge_intervals_loop, if_neg hc]
      obtain ⟨e, tl, heq, _⟩ := merge_intervals_loop_head cs c
      have ihc := ih c
      rw [heq] at ihc
      rw [heq]
      exact List.Chain'.cons (by simpa using lt_of_not_ge hc) ihc

/-- On a gap-separated list the sweep is the identity. -/
theorem merge_intervals_loop_of_gap :
    ∀ (rest : List (Int × Int)) (last : Int × Int),
      List.Chain' (fun a b => a.2 < b.1) (last :: rest) →
      merge_intervals_loop last rest = last :: rest := by
  intro rest
  induction rest with
  | nil => exact fun last _ => rfl
  | cons c cs ih =>
    intro last hchain
    rcases List.chain'_cons.mp hchain with ⟨hgap, htail⟩
    have hc : ¬ c.1 ≤ last.2 := not_le_of_lt hgap
    simp only [merge_intervals_loop, if_neg hc]
    rw [ih c htail]

/-- The sweep preserves well-formedness `start ≤ end`. -/
theorem merge_intervals_loop_fst_le_snd :
    ∀ (rest : List (Int × Int)) (last : Int × Int), last.1 ≤ last.2 →
      (∀ p ∈ rest, p.1 ≤ p.2) →
      ∀ q ∈ merge_intervals_loop last rest, q.1 ≤ q.2 := by
  intro rest
  induction rest with
  | nil =>
    intro last hlast _ q hq
    simp only [merge_intervals_loop, List.mem_singleton] at hq
    rw [hq]; exact hlast
  | cons c cs ih =>
    intro last hlast hrest q hq
    by_cases hc : c.1 ≤ last.2
    · simp only [merge_intervals_loop, if_pos hc] at hq
      exact ih (last.1, max last.2 c.2) (le_trans hlast (le_max_left _ _))
        (fun p hp => hrest p (List.mem_cons_of_mem _ hp)) q hq
    · simp only [merge_intervals_loop, if_neg hc, List.mem_cons] at hq
      rcases hq with hq | hq
      · rw [hq]; exact hlast
      · exact ih c (hrest c (List.mem_cons_self _ _))
          (fun p hp => hrest p (List.mem_cons_of_mem _ hp)) q hq

/-- A gap-separated list of well-formed intervals has its heads strictly
below every later start. -/
theorem chain_gap_head :
    ∀ (t : List (Int × Int)) (hd : Int × Int),
      List.Chain' (fun a b => a.2 < b.1) (hd :: t) →
      (∀ p ∈ t, p.1 ≤ p.2) →
      ∀ b ∈ t, hd.2 < b.1 := by
  intro t
  induction t with
  | nil => intro hd _ _ b hb; cases hb
  | cons c cs ih =>
    intro hd hchain hP b hb
    rcases List.chain'_cons.mp hchain with ⟨hgap, htail⟩
    rcases List.mem_cons.mp hb with hb | hb
    · exact hb ▸ hgap
    · have h1 := ih c htail (fun p hp => hP p (List.mem_cons_of_mem _ hp)) b hb
      have h2 := hP c (List.mem_cons_self _ _)
      omega

/-- A gap-separated list of well-formed intervals is sorted by start. -/
theorem chain_gap_pairwise :
    ∀ (l : List (Int × Int)),
      List.Chain' (fun a b => a.2 < b.1) l →
      (∀ p ∈ l, p.1 ≤ p.2) →
      List.Pairwise (fun a b : Int × Int => a.1 ≤ b.1) l := by
  intro l
  induction l with
  | nil => intro _ _; exact List.Pairwise.nil
  | cons hd t ih =>
    intro hchain hP
    refine List.pairwise_cons.mpr ⟨fun b hb => ?_, ?_⟩
    · have := chain_gap_head t hd hchain
        (fun p hp => hP p (List.mem_cons_of_mem _ hp)) b hb
      have hhd := hP hd (List.mem_cons_self _ _)
      omega
    · exact ih (List.Chain'.tail hchain) (fun p hp => hP p (List.mem_cons_of_mem _ hp))

/-- Claim C4: merging an already-merged list returns it unchanged:
`merge_intervals` is idempotent on lists of well-formed intervals. -/
theorem C4_merge_intervals_idempotent (xs : List (Int × Int))
    (h : ∀ p ∈ xs, p.1 ≤ p.2) :
    merge_intervals (merge_intervals xs) = merge_intervals xs := by
  have hmem : ∀ p ∈ List.insertionSort (fun a b => a.1 ≤ b.1) xs, p.1 ≤ p.2 :=
    fun p hp => h p ((List.perm_insertionSort _ xs).mem_iff.mp hp)
  rcases hs : List.insertionSort (fun a b => a.1 ≤ b.1) xs with _ | ⟨h0, t0⟩
  · have h1 : merge_intervals xs = [] := by
      simp only [merge_intervals, hs]
    rw [h1]
    simp [merge_intervals]
  · have hP := merge_intervals_loop_fst_le_snd t0 h0
      (hmem h0 (by rw [hs]; exact List.mem_cons_self _ _))
      (fun p hp => hmem p (by rw [hs]; exact List.mem_cons_of_mem _ hp))
    have hgap := merge_intervals_loop_gap t0 h0
    have h1 : merge_intervals xs = merge_intervals_loop h0 t0 := by
      simp only [merge_intervals, hs]
    rw [h1]
    have hsorted : List.Sorted (fun a b : Int × Int => a.1 ≤ b.1)
        (merge_intervals_loop h0 t0) := chain_gap_pairwise _ hgap hP
    rcases hm : merge_intervals_loop h0 t0 with _ | ⟨hm0, tm0⟩
    · obtain ⟨e, tl, heq, _⟩ := merge_intervals_loop_head t0 h0
      rw [heq] at hm
      cases hm
    · have hgap2 : List.Chain' (fun a b => a.2 < b.1) (hm0 :: tm0) := hm ▸ hgap
      have hsorted2 : List.Sorted (fun a b : Int × Int => a.1 ≤ b.1)
          (hm0 :: tm0) := hm ▸ hsorted
      simp only [merge_intervals]
      rw [List.Sorted.insertionSort_eq hsorted2]
      exact merge_intervals_loop_of_gap tm0 hm0 hgap2

/-- Witness for C4 at the spec's own example list. -/
theorem C4_merge_intervals_idempotent_witness :
    (∀ p ∈ ([(1, 3), (2, 6), (8, 10), (15, 18)] : List (Int × Int)),
      p.1 ≤ p.2) ∧
    merge_intervals (merge_intervals [(1, 3), (2, 6), (8, 10), (15, 18)]) =
      merge_intervals [(1, 3), (2, 6), (8, 10), (15, 18)] :=
  ⟨by decide, C4_merge_intervals_idempotent _ (by decide)⟩

/-! ## Claim C9: word search restores the board -/

/-- Writing back the value just read leaves a list unchanged (also when the
index is out of range, where both operations are inert). -/
theorem list_set_getD_self {α : Type} :
    ∀ (l : List α) (n : Nat) (d : α), l.set n (l.getD n d) = l := by
  intro l
  induction l with
  | nil => intro n d; rfl
  | cons a t ih =>
    intro n d
    cases n with
    | zero => rfl
    | succ n => exact congrArg (List.cons a) (ih n d)

/-- Reading back a just-written in-range cell. -/
theorem list_getD_set_self {α : Type} (l : List α) (n : Nat) (x d : α)
    (h : n < l.length) : (l.set n x).getD n d = x := by
  rw [List.getD_eq_getElem _ _ (by simpa using h)]
  exact List.getElem_set_self _

/-- Restoring a cell after overwriting it recovers the original board, for
any cell position. -/
theorem setCell_restore (b : List (List Char)) (row col : Int) (x : Char) :
    setCell (setCell b row col x) row col (getCell b row col) = b := by
  unfold setCell getCell
  by_cases hR : row.toNat < b.length
  · rw [list_getD_set_self _ _ _ _ hR, List.set_set, List.set_set,
      list_set_getD_self, list_set_getD_self]
  · have hset : ∀ x' : List Char, b.set row.toNat x' = b :=
      fun x' => List.set_eq_of_length_le (le_of_not_lt hR)
    simp only [hset]

/-- The backtracking helper returns the board exactly as it received it, on
every branch outcome including early success. -/
theorem ws_backtrack_board (rows cols : Nat) :
    ∀ (rest : List Char) (b : List (List Char)) (row col : Int),
      (word_search_backtrack rows cols rest b row col).2 = b := by
  intro rest
  induction rest with
  | nil => intro b row col; rfl
  | cons ch rest ih =>
    intro b row col
    by_cases hg : row < 0 ∨ (rows : Int) ≤ row ∨ col < 0 ∨ (cols : Int) ≤ col ∨
        getCell b row col ≠ ch
    · simp only [word_search_backtrack, if_pos hg]
    · simp only [word_search_backtrack, if_neg hg]
      rcases h1e : word_search_backtrack rows cols rest
          (setCell b row col '#') (row + 1) col with ⟨f1, b1⟩
      have hb1 : b1 = setCell b row col '#' := by
        have := ih (setCell b row col '#') (row + 1) col
        rw [h1e] at this
        exact this
      subst hb1
      rcases f1 with _ | _
      · simp only [Bool.false_eq_true, if_false]
        rcases h2e : word_search_backtrack rows cols rest
            (setCell b row col '#') (row - 1) col with ⟨f2, b2⟩
        have hb2 : b2 = setCell b row col '#' := by
          have := ih (setCell b row col '#') (row - 1) col
          rw [h2e] at this
          exact this
        subst hb2
        rcases f2 with _ | _
        · simp only [Bool.false_eq_true, if_false]
          rcases h3e : word_search_backtrack rows cols rest
              (setCell b row col '#') row (col + 1) with ⟨f3, b3⟩
          have hb3 : b3 = setCell b row col '#' := by
            have := ih (setCell b row col '#') row (col + 1)
            rw [h3e] at this
            exact this
          subst hb3
          rcases f3 with _ | _
          · simp only [Bool.false_eq_true, if_false]
            rcases h4e : word_search_backtrack rows cols rest
                (setCell b row col '#') row (col - 1) with ⟨f4, b4⟩
            have hb4 : b4 = setCell b row col '#' := by
              have := ih (setCell b row col '#') row (col - 1)
              rw [h4e] at this
              exact this
            subst hb4
            exact setCell_restore b row col '#'
          · simp only [if_true]
            exact setCell_restore b row col '#'
        · simp only [if_true]
          exact setCell_restore b row col '#'
      · simp only [if_true]
        exact setCell_restore b row col '#'

/-- The scan over all starting cells also leaves the board unchanged. -/
theorem ws_scan_board (rows cols : Nat) (word : List Char) :
    ∀ (cells : List (Nat × Nat)) (b : List (List Char)),
      (word_search_scan rows cols word cells b).2 = b := by
  intro cells
  induction cells with
  | nil => intro b; rfl
  | cons c cs ih =>
    intro b
    simp only [word_search_scan]
    rcases he : word_search_backtrack rows cols word b (c.1 : Int) (c.2 : Int)
      with ⟨f, b1⟩
    have hb1 : b1 = b := by
      have := ws_backtrack_board rows cols word b (c.1 : Int) (c.2 : Int)
      rw [he] at this
      exact this
    rcases f with _ | _
    · simp only [Bool.false_eq_true, if_false]
      rw [ih b1]
      exact hb1
    · simpa only [if_true] using hb1

/-- Claim C9: on every rectangular board, after `word_search` returns
(whether `True` or `False`) the board equals its state before the call:
every cell mutated to the visited marker is restored exactly. -/
theorem C9_word_search_restores_board (board : List (List Char))
    (word : List Char) (cols : Nat)
    (hrect : ∀ row ∈ board, row.length = cols) :
    ∀ found board1, word_search board word = some (found, board1) →
      board1 = board := by
  intro found board1 hws
  rcases board with _ | ⟨row0, brest⟩
  · cases hws
  · simp only [word_search] at hws
    have := ws_scan_board (row0 :: brest).length row0.length word
      ((List.range (row0 :: brest).length).flatMap
        (fun i => (List.range row0.length).map (fun j => (i, j))))
      (row0 :: brest)
    rcases he : word_search_scan (row0 :: brest).length row0.length word
        ((List.range (row0 :: brest).length).flatMap
          (fun i => (List.range row0.length).map (fun j => (i, j))))
        (row0 :: brest) with ⟨f, b1⟩
    rw [he] at hws this
    cases hws
    exact this

/-- Witness for C9 on a concrete rectangular board where the word is found
(and another cell path is explored and undone). -/
theorem C9_word_search_restores_board_witness :
    (∀ row ∈ [['A', 'B'], ['C', 'D']], row.length = 2) ∧
    ∀ found board1,
      word_search [['A', 'B'], ['C', 'D']] ['A', 'B', 'D'] =
        some (found, board1) →
      board1 = [['A', 'B'], ['C', 'D']] :=
  ⟨by decide, C9_word_search_restores_board [['A', 'B'], ['C', 'D']]
    ['A', 'B', 'D'] 2 (by decide)⟩

/-! ## Claim C8: sort_colors (Dutch flag) -/

/-- Writing to one position leaves reads at other positions unchanged. -/
theorem list_getD_set_ne {α : Type} (l : List α) (i j : Nat) (x d : α)
    (h : i ≠ j) : (l.set i x).getD j d = l.getD j d := by
  rcases Nat.lt_or_ge j l.length with hj | hj
  · rw [List.getD_eq_getElem _ _ (by simpa using hj), List.getD_eq_getElem _ _ hj]
    exact List.getElem_set_ne h _
  · rw [List.getD_eq_default _ _ (by simpa using hj), List.getD_eq_default _ _ hj]

/-- Swapping a position with itself is the identity. -/
theorem list_swap_self (l : List Int) (i : Nat) : list_swap l i i = l := by
  unfold list_swap
  rw [List.set_set, list_set_getD_self]

/-- Swapping preserves length. -/
theorem list_swap_length (l : List Int) (i j : Nat) :
    (list_swap l i j).length = l.length := by
  simp [list_swap]

/-- Reading the first swapped position yields the other's old value. -/
theorem list_swap_getD_fst (l : List Int) (i j : Nat) (hi : i < l.length) :
    (list_swap l i j).getD i 0 = l.getD j 0 := by
  by_cases hij : i = j
  · subst hij
    rw [list_swap_self]
  · unfold list_swap
    rw [list_getD_set_ne _ j i _ _ (fun hc => hij hc.symm),
      list_getD_set_self _ _ _ _ hi]

/-- Reading the second swapped position yields the other's old value. -/
theorem list_swap_getD_snd (l : List Int) (i j : Nat) (hj : j < l.length) :
    (list_swap l i j).getD j 0 = l.getD i 0 := by
  unfold list_swap
  exact list_getD_set_self _ _ _ _ (by simpa using hj)

/-- Reading any other position is unchanged by the swap. -/
theorem list_swap_getD_ne (l : List Int) (i j k : Nat) (hik : k ≠ i)
    (hjk : k ≠ j) : (list_swap l i j).getD k 0 = l.getD k 0 := by
  unfold list_swap
  rw [list_getD_set_ne _ _ _ _ _ (Ne.symm hjk), list_getD_set_ne _ _ _ _ _ (Ne.symm hik)]

/-- Pulling an element to the front in exchange for a new head value is a
permutation. -/
theorem swap_cons_perm :
    ∀ (t : List Int) (k : Nat) (a : Int), k < t.length →
      (t.getD k 0 :: t.set k a).Perm (a :: t) := by
  intro t
  induction t with
  | nil => intro k a hk; simp at hk
  | cons b t' ih =>
    intro k a hk
    cases k with
    | zero => exact List.Perm.swap a b t'
    | succ k =>
      have h1 : (t'.getD k 0 :: b :: t'.set k a).Perm
          (b :: t'.getD k 0 :: t'.set k a) := List.Perm.swap _ _ _
      have h2 : (b :: t'.getD k 0 :: t'.set k a).Perm (b :: a :: t') :=
        (ih k a (by simpa using hk)).cons b
      exact (h1.trans h2).trans (List.Perm.swap _ _ _)

/-- An in-range swap is a permutation of the list. -/
theorem list_swap_perm :
    ∀ (l : List Int) (i j : Nat), i < l.length → j < l.length →
      (list_swap l i j).Perm l := by
  intro l
  induction l with
  | nil => intro i j hi _; simp at hi
  | cons a t ih =>
    intro i j hi hj
    cases i with
    | zero =>
      cases j with
      | zero => rw [list_swap_self]
      | succ k =>
        have he : list_swap (a :: t) 0 (k + 1) = t.getD k 0 :: t.set k a := rfl
        rw [he]
        exact swap_cons_perm t k a (by simpa using hj)
    | succ i =>
      cases j with
      | zero =>
        have he : list_swap (a :: t) (i + 1) 0 = t.getD i 0 :: t.set i a := rfl
        rw [he]
        exact swap_cons_perm t i a (by simpa using hi)
      | succ j =>
        have he : list_swap (a :: t) (i + 1) (j + 1) = a :: list_swap t i j := rfl
        rw [he]
        exact (ih i j (by simpa using hi) (by simpa using hj)).cons a

/-- Invariant of `sort_colors_loop`: zeros before `left`, ones in
`[left, current)`, twos after `right`; on exit the three regions cover the
list, so the result is a sorted permutation of the input. -/
theorem sc_loop_spec (nums0 : List Int)
    (hall : ∀ x ∈ nums0, x = 0 ∨ x = 1 ∨ x = 2) :
    ∀ (fuel : Nat) (l : List Int) (left current : Nat) (right : Int),
      l.Perm nums0 →
      (right - (current : Int) + 1).toNat < fuel →
      left ≤ current → (current : Int) ≤ right + 1 → right < (l.length : Int) →
      (∀ i, i < left → l.getD i 0 = 0) →
      (∀ i, left ≤ i → i < current → l.getD i 0 = 1) →
      (∀ i : Nat, right < (i : Int) → i < l.length → l.getD i 0 = 2) →
      (sort_colors_loop fuel l left current right).Perm nums0 ∧
      List.Sorted (· ≤ ·) (sort_colors_loop fuel l left current right) := by
  intro fuel
  induction fuel with
  | zero => intro l left current right _ hfuel _ _ _ _ _ _; omega
  | succ fuel ih =>
    intro l left current right hperm hfuel hlc hcr hrl hz ho ht
    by_cases hcond : (current : Int) ≤ right
    · have hcl : current < l.length := by omega
      have helem : l.getD current 0 = 0 ∨ l.getD current 0 = 1 ∨
          l.getD current 0 = 2 := by
        have hmem : l.getD current 0 ∈ l := by
          rw [List.getD_eq_getElem _ _ hcl]
          exact List.getElem_mem _
        exact hall _ (hperm.subset hmem)
      simp only [sort_colors_loop]
      rw [if_pos hcond]
      by_cases h0 : l.getD current 0 = 0
      · rw [if_pos h0]
        have hll : left < l.length := by omega
        refine ih (list_swap l left current) (left + 1) (current + 1) right
          ((list_swap_perm l left current hll hcl).trans hperm)
          (by omega) (by omega) (by omega)
          (by rw [list_swap_length]; omega) ?_ ?_ ?_
        · intro i hi
          rcases Nat.lt_or_ge i left with hcase | hcase
          · rw [list_swap_getD_ne l left current i (by omega) (by omega)]
            exact hz i hcase
          · have hieq : i = left := by omega
            rw [hieq, list_swap_getD_fst l left current hll]
            exact h0
        · intro i hi1 hi2
          rcases Nat.lt_or_ge i current with hcase | hcase
          · rw [list_swap_getD_ne l left current i (by omega) (by omega)]
            exact ho i (by omega) hcase
          · have hieq : i = current := by omega
            rw [hieq, list_swap_getD_snd l left current hcl]
            exact ho left (le_refl _) (by omega)
        · intro i hi1 hi2
          rw [list_swap_length] at hi2
          rw [list_swap_getD_ne l left current i (by omega) (by omega)]
          exact ht i hi1 hi2
      · by_cases h2 : l.getD current 0 = 2
        · rw [if_neg h0, if_pos h2]
          have hrt : right.toNat < l.length := by omega
          have hrtc : ((right.toNat : Nat) : Int) = right :=
            Int.toNat_of_nonneg (by omega)
          refine ih (list_swap l current right.toNat) left current (right - 1)
            ((list_swap_perm l current right.toNat hcl hrt).trans hperm)
            (by omega) hlc (by omega)
            (by rw [list_swap_length]; omega) ?_ ?_ ?_
          · intro i hi
            rw [list_swap_getD_ne l current right.toNat i (by omega) (by omega)]
            exact hz i hi
          · intro i hi1 hi2
            rw [list_swap_getD_ne l current right.toNat i (by omega) (by omega)]
            exact ho i hi1 hi2
          · intro i hi1 hi2
            rw [list_swap_length] at hi2
            by_cases hieq : i = right.toNat
            · rw [hieq, list_swap_getD_snd l current right.toNat hrt]
              exact h2
            · rw [list_swap_getD_ne l current right.toNat i (by omega) hieq]
              exact ht i (by omega) hi2
        · rw [if_neg h0, if_neg h2]
          have h1 : l.getD current 0 = 1 := by
            rcases helem with hv | hv | hv
            · exact absurd hv h0
            · exact hv
            · exact absurd hv h2
          refine ih l left (current + 1) right hperm (by omega) (by omega)
            (by omega) hrl hz ?_ ht
          intro i hi1 hi2
          rcases Nat.lt_or_ge i current with hcase | hcase
          · exact ho i hi1 hcase
          · have hieq : i = current := by omega
            rw [hieq]
            exact h1
    · simp only [sort_colors_loop]
      rw [if_neg hcond]
      refine ⟨hperm, ?_⟩
      have hval : ∀ i : Nat, i < l.length →
          (i < left ∧ l.getD i 0 = 0) ∨
          (left ≤ i ∧ i < current ∧ l.getD i 0 = 1) ∨
          (current ≤ i ∧ l.getD i 0 = 2) := by
        intro i hi
        rcases Nat.lt_or_ge i left with hcase | hcase
        · exact Or.inl ⟨hcase, hz i hcase⟩
        · rcases Nat.lt_or_ge i current with hcase2 | hcase2
          · exact Or.inr (Or.inl ⟨hcase, hcase2, ho i hcase hcase2⟩)
          · exact Or.inr (Or.inr ⟨hcase2, ht i (by omega) hi⟩)
      refine List.pairwise_iff_get.mpr ?_
      intro i j hij
      have hij' : (i : Nat) < (j : Nat) := hij
      rw [List.get_eq_getElem, List.get_eq_getElem,
        ← List.getD_eq_getElem l 0 i.isLt, ← List.getD_eq_getElem l 0 j.isLt]
      rcases hval i.1 i.isLt with hvi | hvi | hvi <;>
        rcases hval j.1 j.isLt with hvj | hvj | hvj <;>
        omega

/-- Claim C8: on an input over `{0, 1, 2}`, `sort_colors` returns a
non-decreasing permutation of the input, and applying it again leaves the
result unchanged. -/
theorem C8_sort_colors_spec (nums : List Int)
    (h : ∀ x ∈ nums, x = 0 ∨ x = 1 ∨ x = 2) :
    (sort_colors nums).Perm nums ∧
    List.Sorted (· ≤ ·) (sort_colors nums) ∧
    sort_colors (sort_colors nums) = sort_colors nums := by
  have base := sc_loop_spec nums h (nums.length + 1) nums 0 0
    ((nums.length : Int) - 1) (List.Perm.refl _) (by omega) (le_refl _)
    (by omega) (by omega) (fun i hi => absurd hi (by omega))
    (fun i hi1 hi2 => absurd hi1 (by omega))
    (fun i hi1 hi2 => absurd hi1 (by omega))
  refine ⟨base.1, base.2, ?_⟩
  have h2 : ∀ x ∈ sort_colors nums, x = 0 ∨ x = 1 ∨ x = 2 :=
    fun x hx => h x (base.1.subset hx)
  have base2 := sc_loop_spec (sort_colors nums) h2
    ((sort_colors nums).length + 1) (sort_colors nums) 0 0
    (((sort_colors nums).length : Int) - 1) (List.Perm.refl _) (by omega)
    (le_refl _) (by omega) (by omega) (fun i hi => absurd hi (by omega))
    (fun i hi1 hi2 => absurd hi1 (by omega))
    (fun i hi1 hi2 => absurd hi1 (by omega))
  exact List.eq_of_perm_of_sorted base2.1 base2.2 base.2

/-- Witness for C8 at the concrete input `[2, 0, 1, 2, 0]`. -/
theorem C8_sort_colors_spec_witness :
    (∀ x ∈ ([2, 0, 1, 2, 0] : List Int), x = 0 ∨ x = 1 ∨ x = 2) ∧
    ((sort_colors [2, 0, 1, 2, 0]).Perm [2, 0, 1, 2, 0] ∧
      List.Sorted (· ≤ ·) (sort_colors [2, 0, 1, 2, 0]) ∧
      sort_colors (sort_colors [2, 0, 1, 2, 0]) =
        sort_colors [2, 0, 1, 2, 0]) :=
  ⟨by decide, C8_sort_colors_spec [2, 0, 1, 2, 0] (by decide)⟩

/-! ## Claim C3: minimum meeting rooms -/

/-- In a sorted list, if the element at index `k` is `≤ t` then at least
`k + 1` elements are `≤ t`. -/
theorem sortedCountLe_ge :
    ∀ (l : List Int) (k : Nat) (t : Int), List.Sorted (· ≤ ·) l →
      k < l.length → l.getD k 0 ≤ t → k + 1 ≤ countLe l t := by
  intro l
  induction l with
  | nil => intro k t _ hk _; simp at hk
  | cons a tl ih =>
    intro k t hs hk ht
    rcases List.sorted_cons.mp hs with ⟨hhead, htl⟩
    unfold countLe
    rw [List.countP_cons]
    cases k with
    | zero =>
      have ha : a ≤ t := ht
      simp [ha]
    | succ k =>
      have hk' : k < tl.length := by simpa using hk
      have ht' : tl.getD k 0 ≤ t := ht
      have hIH := ih k t htl hk' ht'
      have ha : a ≤ t := by
        refine le_trans (hhead (tl.getD k 0) ?_) ht'
        rw [List.getD_eq_getElem _ _ hk']
        exact List.getElem_mem _
      unfold countLe at hIH
      simp only [decide_eq_true_eq]
      rw [if_pos ha]
      omega

/-- In a sorted list, if `t` is below the element at index `k` then at most
`k` elements are `≤ t`. -/
theorem sortedCountLe_le :
    ∀ (l : List Int) (k : Nat) (t : Int), List.Sorted (· ≤ ·) l →
      k < l.length → t < l.getD k 0 → countLe l t ≤ k := by
  intro l
  induction l with
  | nil => intro k t _ hk _; simp at hk
  | cons a tl ih =>
    intro k t hs hk ht
    rcases List.sorted_cons.mp hs with ⟨hhead, htl⟩
    unfold countLe
    rw [List.countP_cons]
    cases k with
    | zero =>
      have hta : t < a := ht
      have hz : List.countP (fun x => decide (x ≤ t)) tl = 0 := by
        rw [List.countP_eq_zero]
        intro x hx
        simp only [decide_eq_true_eq]
        have := hhead x hx
        omega
      simp only [decide_eq_true_eq]
      rw [hz, if_neg (by omega)]
    | succ k =>
      have hk' : k < tl.length := by simpa using hk
      have ht' : t < tl.getD k 0 := ht
      have hIH := ih k t htl hk' ht'
      unfold countLe at hIH
      simp only [decide_eq_true_eq]
      by_cases ha : a ≤ t
      · rw [if_pos ha]; omega
      · rw [if_neg ha]; omega

/-- Monotonicity of `countLe` in the threshold. -/
theorem countLe_mono (l : List Int) (t t' : Int) (h : t ≤ t') :
    countLe l t ≤ countLe l t' := by
  unfold countLe
  refine List.countP_mono_left ?_
  intro x _ hx
  simp only [decide_eq_true_eq] at hx ⊢
  omega

/-- Half-open occupancy as a difference of threshold counts: for
well-formed intervals, the meetings live at time `t` are the started ones
minus the already-ended ones. -/
theorem occupancy_eq :
    ∀ (intervals : List (Int × Int)) (t : Int),
      (∀ p ∈ intervals, p.1 ≤ p.2) →
      (occupancy intervals t : Int) =
        (countLe (intervals.map Prod.fst) t : Int) -
          (countLe (intervals.map Prod.snd) t : Int) := by
  intro intervals
  induction intervals with
  | nil => intro t _; simp [occupancy, countLe]
  | cons p ps ih =>
    intro t hP
    have hps := ih t (fun q hq => hP q (List.mem_cons_of_mem _ hq))
    have hp : p.1 ≤ p.2 := hP p (List.mem_cons_self _ _)
    unfold occupancy countLe at hps ⊢
    simp only [List.map_cons, List.countP_cons, decide_eq_true_eq]
    by_cases h2 : p.2 ≤ t
    · have h1 : p.1 ≤ t := le_trans hp h2
      rw [if_pos h1, if_pos h2, if_neg (by omega)]
      push_cast
      omega
    · by_cases h1 : p.1 ≤ t
      · rw [if_pos h1, if_neg h2, if_pos ⟨h1, by omega⟩]
        push_cast
        omega
      · rw [if_neg h1, if_neg h2, if_neg (fun hc => h1 hc.1)]
        push_cast
        omega

/-- The initial accumulator and every generated value bound a
foldl maximum from below. -/
theorem le_foldl_max {α : Type} (g : α → Int) :
    ∀ (l : List α) (m : Int),
      m ≤ l.foldl (fun acc x => max acc (g x)) m ∧
      ∀ x ∈ l, g x ≤ l.foldl (fun acc x => max acc (g x)) m := by
  intro l
  induction l with
  | nil => intro m; exact ⟨le_refl _, fun x hx => absurd hx (List.not_mem_nil x)⟩
  | cons a tl ih =>
    intro m
    have htl := ih (max m (g a))
    rw [List.foldl_cons]
    refine ⟨le_trans (le_max_left _ _) htl.1, ?_⟩
    intro x hx
    rcases List.mem_cons.mp hx with hx | hx
    · rw [hx]
      exact le_trans (le_max_right m (g a)) htl.1
    · exact htl.2 x hx

/-- A foldl-maximum is either the initial accumulator or attained at a list
element. -/
theorem foldl_max_attained {α : Type} (g : α → Int) :
    ∀ (l : List α) (m : Int),
      l.foldl (fun acc x => max acc (g x)) m = m ∨
      ∃ x ∈ l, l.foldl (fun acc x => max acc (g x)) m = g x := by
  intro l
  induction l with
  | nil => intro m; exact Or.inl rfl
  | cons a tl ih =>
    intro m
    rw [List.foldl_cons]
    rcases ih (max m (g a)) with h | ⟨x, hx, hval⟩
    · rcases max_choice m (g a) with hm | hm
      · exact Or.inl (by rw [h, hm])
      · exact Or.inr ⟨a, List.mem_cons_self _ _, by rw [h, hm]⟩
    · exact Or.inr ⟨x, List.mem_cons_of_mem _ hx, hval⟩

/-- Pointwise separation of the sorted event lists: when every interval has
`start < end`, the i-th smallest end lies strictly above the i-th smallest
start. -/
theorem sorted_starts_lt_ends (intervals : List (Int × Int))
    (hlt : ∀ p ∈ intervals, p.1 < p.2) :
    ∀ i, i < intervals.length →
      (List.insertionSort (· ≤ ·) (intervals.map Prod.fst)).getD i 0 <
        (List.insertionSort (· ≤ ·) (intervals.map Prod.snd)).getD i 0 := by
  intro i hi
  have hlS : (List.insertionSort (· ≤ ·) (intervals.map Prod.fst)).length =
      intervals.length := by
    rw [List.length_insertionSort, List.length_map]
  have hlE : (List.insertionSort (· ≤ ·) (intervals.map Prod.snd)).length =
      intervals.length := by
    rw [List.length_insertionSort, List.length_map]
  by_contra hcon
  push_neg at hcon
  have c1 : i + 1 ≤ countLe (List.insertionSort (· ≤ ·)
      (intervals.map Prod.snd))
      ((List.insertionSort (· ≤ ·) (intervals.map Prod.snd)).getD i 0) :=
    sortedCountLe_ge _ i _ (List.sorted_insertionSort _ _) (by omega)
      (le_refl _)
  have htrans : ∀ x, countLe (List.insertionSort (· ≤ ·)
      (intervals.map Prod.snd)) x = countLe (intervals.map Prod.snd) x :=
    fun x => (List.perm_insertionSort _ _).countP_eq _
  have htransS : ∀ x, countLe (List.insertionSort (· ≤ ·)
      (intervals.map Prod.fst)) x = countLe (intervals.map Prod.fst) x :=
    fun x => (List.perm_insertionSort _ _).countP_eq _
  have hstep : ∀ x, countLe (intervals.map Prod.snd) x ≤
      countLe (intervals.map Prod.fst) (x - 1) := by
    intro x
    unfold countLe
    rw [List.countP_map, List.countP_map]
    refine List.countP_mono_left ?_
    intro p hp h
    simp only [Function.comp_apply, decide_eq_true_eq] at h ⊢
    have := hlt p hp
    omega
  have c2 : countLe (List.insertionSort (· ≤ ·) (intervals.map Prod.fst))
      ((List.insertionSort (· ≤ ·) (intervals.map Prod.snd)).getD i 0 - 1) ≤
      i :=
    sortedCountLe_le _ i _ (List.sorted_insertionSort _ _) (by omega)
      (by omega)
  have := hstep ((List.insertionSort (· ≤ ·)
    (intervals.map Prod.snd)).getD i 0)
  rw [← htrans, ← htransS] at this
  omega

/-- Invariant of `min_meeting_rooms_loop` on the sorted event lists: with
`a` starts consumed and `b` ends drained (`rooms = a - b`, every drained end
`≤` the pending start), the loop returns the running maximum folded with
the per-start room counts `j + 1 - #{ends ≤ starts[j]}`. -/
theorem mmr_loop_spec (S E : List Int) (n : Nat)
    (hS : List.Sorted (· ≤ ·) S) (hE : List.Sorted (· ≤ ·) E)
    (hlS : S.length = n) (hlE : E.length = n)
    (hpt : ∀ i, i < n → S.getD i 0 < E.getD i 0) :
    ∀ (fuel a b : Nat) (m : Int),
      b ≤ a → a ≤ n →
      (∀ k, k < b → a < n → E.getD k 0 ≤ S.getD a 0) →
      (n - a) + (n - b) < fuel →
      min_meeting_rooms_loop fuel (S.drop a) (E.drop b)
          ((a : Int) - (b : Int)) m =
        some (List.foldl
          (fun (acc : Int) (j : Nat) =>
            max acc ((j : Int) + 1 - (countLe E (S.getD j 0) : Int)))
          m (List.range' a (n - a))) := by
  intro fuel
  induction fuel with
  | zero => intro a b m _ _ _ hfuel; omega
  | succ fuel ih =>
    intro a b m hba han hinv hfuel
    rcases Nat.eq_or_lt_of_le han with haeq | halt
    · subst haeq
      rw [show S.drop a = [] from List.drop_eq_nil_of_le (by omega),
        show a - a = 0 from by omega]
      simp [min_meeting_rooms_loop]
    · have hbn : b < n := lt_of_le_of_lt hba halt
      have hSd : S.drop a = S.getD a 0 :: S.drop (a + 1) := by
        rw [List.getD_eq_getElem _ _ (show a < S.length by omega)]
        exact List.drop_eq_getElem_cons _
      have hEd : E.drop b = E.getD b 0 :: E.drop (b + 1) := by
        rw [List.getD_eq_getElem _ _ (show b < E.length by omega)]
        exact List.drop_eq_getElem_cons _
      rw [hSd, hEd]
      simp only [min_meeting_rooms_loop]
      by_cases hlt : S.getD a 0 < E.getD b 0
      · rw [if_pos hlt]
        have hble : b ≤ countLe E (S.getD a 0) := by
          cases b with
          | zero => exact Nat.zero_le _
          | succ b' =>
            exact sortedCountLe_ge E b' _ hE (by omega)
              (hinv b' (by omega) halt)
        have hbge : countLe E (S.getD a 0) ≤ b :=
          sortedCountLe_le E b _ hE (by omega) hlt
        have hb : countLe E (S.getD a 0) = b := le_antisymm hbge hble
        have hr : List.range' a (n - a) =
            a :: List.range' (a + 1) (n - (a + 1)) := by
          rw [show n - a = (n - (a + 1)) + 1 from by omega]
          rfl
        rw [hr, List.foldl_cons]
        have hIH := ih (a + 1) b (max m ((a : Int) - (b : Int) + 1))
          (by omega) (by omega)
          (fun k hk h1 => le_trans (hinv k hk halt)
            (sorted_getD_mono hS (by omega) (by omega)))
          (by omega)
        have hcast : (((a + 1 : Nat)) : Int) - (b : Int) =
            (a : Int) - (b : Int) + 1 := by push_cast; ring
        rw [hcast, hEd] at hIH
        have hacc : max m ((a : Int) - (b : Int) + 1) =
            max m ((a : Int) + 1 - (countLe E (S.getD a 0) : Int)) := by
          rw [hb]
          congr 1
          ring
        rw [← hacc]
        exact hIH
      · rw [if_neg hlt]
        have hblt : b < a := by
          rcases Nat.eq_or_lt_of_le hba with heq | h
          · exfalso
            rw [heq] at hinv hlt
            exact hlt (hpt a halt)
          · exact h
        have hIH := ih a (b + 1) m hblt (le_of_lt halt)
          (fun k hk h1 => by
            rcases Nat.lt_or_ge k b with hkb | hkb
            · exact hinv k hkb h1
            · have hkeq : k = b := by omega
              rw [hkeq]
              exact le_of_not_lt hlt)
          (by omega)
        have hcast : (a : Int) - (((b + 1 : Nat)) : Int) =
            (a : Int) - (b : Int) - 1 := by push_cast; ring
        rw [hcast, hSd] at hIH
        exact hIH

/-- Counterexample to claim C3 as stated: the claim's precondition allows
`start = end`, but `min_meeting_rooms([[0, 0]])` drains the single end
first (`starts[0] < ends[0]` fails) and then evaluates `ends[1]`, raising
`IndexError` (modelled by `none`) instead of returning the maximum
half-open occupancy `0`. -/
theorem C3_counterexample : min_meeting_rooms [(0, 0)] = none := by decide

/-- Amended claim C3: for every non-empty list of intervals with strictly
positive length (`s < e`), `min_meeting_rooms` returns exactly the maximum
over all time points `t` of the number of intervals with `s ≤ t < e`; in
particular an end equal to a start is drained first and back-to-back
meetings need no extra room. -/
theorem C3_min_meeting_rooms_amended (intervals : List (Int × Int))
    (hne : intervals ≠ []) (hlt : ∀ p ∈ intervals, p.1 < p.2) :
    ∃ M : Nat, min_meeting_rooms intervals = some ((M : Nat) : Int) ∧
      (∀ t : Int, occupancy intervals t ≤ M) ∧
      (∃ t : Int, occupancy intervals t = M) := by
  obtain ⟨S, hSdef⟩ : ∃ S, S = List.insertionSort (· ≤ ·)
      (intervals.map Prod.fst) := ⟨_, rfl⟩
  obtain ⟨E, hEdef⟩ : ∃ E, E = List.insertionSort (· ≤ ·)
      (intervals.map Prod.snd) := ⟨_, rfl⟩
  have hn : 0 < intervals.length := List.length_pos.mpr hne
  have hS : List.Sorted (· ≤ ·) S := by
    rw [hSdef]; exact List.sorted_insertionSort _ _
  have hE : List.Sorted (· ≤ ·) E := by
    rw [hEdef]; exact List.sorted_insertionSort _ _
  have hlS : S.length = intervals.length := by
    rw [hSdef, List.length_insertionSort, List.length_map]
  have hlE : E.length = intervals.length := by
    rw [hEdef, List.length_insertionSort, List.length_map]
  have hpt : ∀ i, i < intervals.length → S.getD i 0 < E.getD i 0 := by
    intro i hi
    rw [hSdef, hEdef]
    exact sorted_starts_lt_ends intervals hlt i hi
  have hcS : ∀ x, countLe S x = countLe (intervals.map Prod.fst) x := by
    intro x
    rw [hSdef]
    exact (List.perm_insertionSort _ _).countP_eq _
  have hcE : ∀ x, countLe E x = countLe (intervals.map Prod.snd) x := by
    intro x
    rw [hEdef]
    exact (List.perm_insertionSort _ _).countP_eq _
  have hloop := mmr_loop_spec S E intervals.length hS hE hlS hlE hpt
    (2 * intervals.length + 1) 0 0 0 (le_refl _) (Nat.zero_le _)
    (fun k hk _ => absurd hk (by omega)) (by omega)
  rw [List.drop_zero, List.drop_zero,
    show ((0 : Nat) : Int) - ((0 : Nat) : Int) = 0 from by norm_num,
    Nat.sub_zero] at hloop
  have hmm : min_meeting_rooms intervals =
      some (List.foldl
        (fun (acc : Int) (j : Nat) =>
            max acc ((j : Int) + 1 - (countLe E (S.getD j 0) : Int)))
        0 (List.range' 0 intervals.length)) := by
    unfold min_meeting_rooms
    rw [if_neg hne, ← hSdef, ← hEdef]
    exact hloop
  have hocc_eq : ∀ t : Int, (occupancy intervals t : Int) =
      (countLe S t : Int) - (countLe E t : Int) := by
    intro t
    rw [hcS t, hcE t]
    exact occupancy_eq intervals t (fun p hp => le_of_lt (hlt p hp))
  have hfold := le_foldl_max
    (fun j : Nat => (j : Int) + 1 - (countLe E (S.getD j 0) : Int))
    (List.range' 0 intervals.length) 0
  simp only [] at hfold
  have hM0 := hfold.1
  have hub := hfold.2
  have hbound : ∀ t : Int, (occupancy intervals t : Int) ≤
      List.foldl
        (fun (acc : Int) (j : Nat) =>
            max acc ((j : Int) + 1 - (countLe E (S.getD j 0) : Int)))
        0 (List.range' 0 intervals.length) := by
    intro t
    rcases Nat.eq_zero_or_pos (countLe S t) with h0 | hpos
    · rw [hocc_eq t, h0]
      omega
    · have hc_le_n : countLe S t ≤ intervals.length := by
        rw [← hlS]
        exact List.countP_le_length _
      have hSj : S.getD (countLe S t - 1) 0 ≤ t := by
        by_contra hcon
        push_neg at hcon
        have := sortedCountLe_le S (countLe S t - 1) t hS (by omega) hcon
        omega
      have hterm := hub (countLe S t - 1) (by rw [List.mem_range'_1]; omega)
      have hmono := countLe_mono E (S.getD (countLe S t - 1) 0) t hSj
      rw [hocc_eq t]
      omega
  have hatt := foldl_max_attained
    (fun j : Nat => (j : Int) + 1 - (countLe E (S.getD j 0) : Int))
    (List.range' 0 intervals.length) 0
  simp only [] at hatt
  rcases hatt with h0 | ⟨j, hjmem, hjval⟩
  · exfalso
    have h1 := hub 0 (by rw [List.mem_range'_1]; omega)
    have hc0 : countLe E (S.getD 0 0) = 0 := by
      have := sortedCountLe_le E 0 (S.getD 0 0) hE (by omega)
        (hpt 0 (by omega))
      omega
    rw [hc0] at h1
    omega
  · rw [List.mem_range'_1] at hjmem
    have hge : (j : Int) + 1 ≤ (countLe S (S.getD j 0) : Int) := by
      have := sortedCountLe_ge S j (S.getD j 0) hS (by omega) (le_refl _)
      omega
    have hattval : (occupancy intervals (S.getD j 0) : Int) =
        List.foldl
          (fun (acc : Int) (j : Nat) =>
            max acc ((j : Int) + 1 - (countLe E (S.getD j 0) : Int)))
          0 (List.range' 0 intervals.length) := by
      have hle := hbound (S.getD j 0)
      have hocc := hocc_eq (S.getD j 0)
      have hmono := countLe_mono E (S.getD j 0) (S.getD j 0) (le_refl _)
      omega
    refine ⟨(occupancy intervals (S.getD j 0)), ?_, ?_,
      ⟨S.getD j 0, rfl⟩⟩
    · rw [hmm, hattval]
    · intro t
      have h1 := hbound t
      rw [← hattval] at h1
      omega

/-- Witness for the amended C3 at the spec's example
`[[0, 30], [5, 10], [15, 20]]` (answer 2). -/
theorem C3_min_meeting_rooms_amended_witness :
    (([(0, 30), (5, 10), (15, 20)] : List (Int × Int)) ≠ [] ∧
      ∀ p ∈ ([(0, 30), (5, 10), (15, 20)] : List (Int × Int)), p.1 < p.2) ∧
    ∃ M : Nat,
      min_meeting_rooms [(0, 30), (5, 10), (15, 20)] = some ((M : Nat) : Int) ∧
      (∀ t : Int, occupancy [(0, 30), (5, 10), (15, 20)] t ≤ M) ∧
      (∃ t : Int, occupancy [(0, 30), (5, 10), (15, 20)] t = M) :=
  ⟨⟨by decide, by decide⟩,
    C3_min_meeting_rooms_amended [(0, 30), (5, 10), (15, 20)] (by decide)
      (by decide)⟩

/-! ## Claim C6: iterative DFS matches recursive DFS -/

/-- The neighbour scan only grows the visited set, given that each visit
call does. -/
theorem dfs_nbrs_subset {n : Nat}
    (visit : Fin n → Finset (Fin n) → Option (List (Fin n) × Finset (Fin n)))
    (hv : ∀ v V o V', visit v V = some (o, V') → V ⊆ V') :
    ∀ (l : List (Fin n)) (V : Finset (Fin n)) (o : List (Fin n))
      (V' : Finset (Fin n)), dfs_nbrs visit l V = some (o, V') → V ⊆ V' := by
  intro l
  induction l with
  | nil =>
    intro V o V' h
    simp only [dfs_nbrs] at h
    cases h
    exact Finset.Subset.refl _
  | cons nb rest ih =>
    intro V o V' h
    simp only [dfs_nbrs] at h
    by_cases hmem : nb ∈ V
    · rw [if_pos hmem] at h
      exact ih V o V' h
    · rw [if_neg hmem] at h
      cases hv1 : visit nb V with
      | none => rw [hv1] at h; cases h
      | some r1 =>
        rcases r1 with ⟨o1, V1⟩
        rw [hv1] at h
        simp only [] at h
        cases hn2 : dfs_nbrs visit rest V1 with
        | none => rw [hn2] at h; cases h
        | some r2 =>
          rcases r2 with ⟨o2, V2⟩
          rw [hn2] at h
          simp only [] at h
          cases h
          exact Finset.Subset.trans (hv nb V o1 V1 hv1) (ih V1 o2 V' hn2)

/-- Each `dfs_visit` call only grows the visited set. -/
theorem dfs_visit_subset {n : Nat} (adj : Fin n → List (Fin n)) :
    ∀ (fuel : Nat) (v : Fin n) (V : Finset (Fin n)) (o : List (Fin n))
      (V' : Finset (Fin n)), dfs_visit adj fuel v V = some (o, V') → V ⊆ V' := by
  intro fuel
  induction fuel with
  | zero => intro v V o V' h; cases h
  | succ fuel ih =>
    intro v V o V' h
    simp only [dfs_visit] at h
    cases hn : dfs_nbrs (dfs_visit adj fuel) (adj v) (insert v V) with
    | none => rw [hn] at h; cases h
    | some r =>
      rcases r with ⟨o1, V1⟩
      rw [hn] at h
      simp only [] at h
      cases h
      exact Finset.Subset.trans (Finset.subset_insert v V)
        (dfs_nbrs_subset _ (fun a b c d hh => ih a b c d hh) _ _ _ _ hn)

/-- Success of the neighbour scan is preserved by a pointwise-stronger
visit function. -/
theorem dfs_nbrs_mono {n : Nat}
    (visit1 visit2 : Fin n → Finset (Fin n) →
      Option (List (Fin n) × Finset (Fin n)))
    (hmono : ∀ v V r, visit1 v V = some r → visit2 v V = some r) :
    ∀ (l : List (Fin n)) (V : Finset (Fin n))
      (r : List (Fin n) × Finset (Fin n)),
      dfs_nbrs visit1 l V = some r → dfs_nbrs visit2 l V = some r := by
  intro l
  induction l with
  | nil => intro V r h; exact h
  | cons nb rest ih =>
    intro V r h
    simp only [dfs_nbrs] at h ⊢
    by_cases hmem : nb ∈ V
    · rw [if_pos hmem] at h ⊢
      exact ih V r h
    · rw [if_neg hmem] at h ⊢
      cases hv1 : visit1 nb V with
      | none => rw [hv1] at h; cases h
      | some r1 =>
        rcases r1 with ⟨o1, V1⟩
        rw [hv1] at h
        simp only [] at h
        rw [hmono nb V (o1, V1) hv1]
        simp only []
        cases hn2 : dfs_nbrs visit1 rest V1 with
        | none => rw [hn2] at h; cases h
        | some r2 =>
          rcases r2 with ⟨o2, V2⟩
          rw [hn2] at h
          simp only [] at h
          rw [ih V1 (o2, V2) hn2]
          exact h

/-- More fuel preserves successful `dfs_visit` results. -/
theorem dfs_visit_mono {n : Nat} (adj : Fin n → List (Fin n)) :
    ∀ (fuel fuel2 : Nat), fuel ≤ fuel2 →
      ∀ (v : Fin n) (V : Finset (Fin n)) (r : List (Fin n) × Finset (Fin n)),
        dfs_visit adj fuel v V = some r → dfs_visit adj fuel2 v V = some r := by
  intro fuel
  induction fuel with
  | zero => intro fuel2 _ v V r h; cases h
  | succ fuel ih =>
    intro fuel2 hle v V r h
    cases fuel2 with
    | zero => omega
    | succ fuel2 =>
      simp only [dfs_visit] at h ⊢
      cases hn : dfs_nbrs (dfs_visit adj fuel) (adj v) (insert v V) with
      | none => rw [hn] at h; cases h
      | some r1 =>
        rw [hn] at h
        rw [dfs_nbrs_mono (dfs_visit adj fuel) (dfs_visit adj fuel2)
          (fun a b c hh => ih fuel2 (by omega) a b c hh) _ _ _ hn]
        exact h

/-- The neighbour scan splits over list append. -/
theorem dfs_nbrs_append {n : Nat}
    (visit : Fin n → Finset (Fin n) → Option (List (Fin n) × Finset (Fin n))) :
    ∀ (l1 l2 : List (Fin n)) (V W1 W2 : Finset (Fin n))
      (x1 x2 : List (Fin n)),
      dfs_nbrs visit l1 V = some (x1, W1) →
      dfs_nbrs visit l2 W1 = some (x2, W2) →
      dfs_nbrs visit (l1 ++ l2) V = some (x1 ++ x2, W2) := by
  intro l1
  induction l1 with
  | nil =>
    intro l2 V W1 W2 x1 x2 h1 h2
    simp only [dfs_nbrs] at h1
    cases h1
    simpa using h2
  | cons nb rest ih =>
    intro l2 V W1 W2 x1 x2 h1 h2
    simp only [dfs_nbrs, List.cons_append] at h1 ⊢
    by_cases hmem : nb ∈ V
    · rw [if_pos hmem] at h1 ⊢
      exact ih l2 V W1 W2 x1 x2 h1 h2
    · rw [if_neg hmem] at h1 ⊢
      cases hv1 : visit nb V with
      | none => rw [hv1] at h1; cases h1
      | some r1 =>
        rcases r1 with ⟨o1, V1⟩
        rw [hv1] at h1
        simp only [] at h1 ⊢
        cases hn2 : dfs_nbrs visit rest V1 with
        | none => rw [hn2] at h1; cases h1
        | some r2 =>
          rcases r2 with ⟨o2, V2⟩
          rw [hn2] at h1
          simp only [] at h1
          cases h1
          simp only [List.append_eq]
          rw [ih l2 V1 W1 W2 o2 x2 hn2 h2]
          simp [List.append_assoc]

/-- Dropping neighbours already in a subset of the visited set does not
change the scan: they would be skipped at their turn anyway. -/
theorem dfs_nbrs_filter {n : Nat}
    (visit : Fin n → Finset (Fin n) → Option (List (Fin n) × Finset (Fin n)))
    (hv : ∀ v V o V', visit v V = some (o, V') → V ⊆ V') :
    ∀ (l rest : List (Fin n)) (W V : Finset (Fin n)), W ⊆ V →
      dfs_nbrs visit (l.filter (fun nb => nb ∉ W) ++ rest) V =
        dfs_nbrs visit (l ++ rest) V := by
  intro l
  induction l with
  | nil => intro rest W V _; rfl
  | cons nb rest' ih =>
    intro rest W V hWV
    by_cases hmem : nb ∈ W
    · have hfilt : (nb :: rest').filter (fun nb => nb ∉ W) =
          rest'.filter (fun nb => nb ∉ W) := by
        simp [List.filter_cons, hmem]
      rw [hfilt, ih rest W V hWV]
      simp only [List.cons_append, dfs_nbrs]
      rw [if_pos (hWV hmem)]
      rfl
    · have hfilt : (nb :: rest').filter (fun nb => nb ∉ W) =
          nb :: rest'.filter (fun nb => nb ∉ W) := by
        simp [List.filter_cons, hmem]
      rw [hfilt]
      simp only [List.cons_append, dfs_nbrs]
      by_cases hmemV : nb ∈ V
      · rw [if_pos hmemV, if_pos hmemV]
        exact ih rest W V hWV
      · rw [if_neg hmemV, if_neg hmemV]
        cases hv1 : visit nb V with
        | none => rfl
        | some r1 =>
          rcases r1 with ⟨o1, V1⟩
          simp only [List.append_eq]
          rw [ih rest W V1
            (Finset.Subset.trans hWV (hv nb V o1 V1 hv1))]

/-- With the inductive hypothesis for one fuel level, the neighbour scan
never exhausts: the visited-set complement bounds the needed depth. -/
theorem dfs_nbrs_enough {n : Nat} (adj : Fin n → List (Fin n)) (fuel : Nat)
    (hfuel : ∀ (v : Fin n) (V : Finset (Fin n)), v ∉ V →
      (Finset.univ \ V).card ≤ fuel → (dfs_visit adj fuel v V).isSome) :
    ∀ (l : List (Fin n)) (W : Finset (Fin n)),
      (Finset.univ \ W).card ≤ fuel →
      (dfs_nbrs (dfs_visit adj fuel) l W).isSome := by
  intro l
  induction l with
  | nil => intro W _; simp [dfs_nbrs]
  | cons nb rest ih =>
    intro W hW
    simp only [dfs_nbrs]
    by_cases hmem : nb ∈ W
    · rw [if_pos hmem]
      exact ih W hW
    · rw [if_neg hmem]
      obtain ⟨⟨o1, W1⟩, hv1⟩ :=
        Option.isSome_iff_exists.mp (hfuel nb W hmem hW)
      rw [hv1]
      have hW1 : (Finset.univ \ W1).card ≤ fuel :=
        le_trans (Finset.card_le_card (Finset.sdiff_subset_sdiff
          (Finset.Subset.refl _) (dfs_visit_subset adj fuel nb W o1 W1 hv1))) hW
      obtain ⟨⟨o2, W2⟩, hn2⟩ := Option.isSome_iff_exists.mp (ih W1 hW1)
      simp only []
      rw [hn2]
      rfl

/-- The recursion depth `fuel` suffices whenever it bounds the number of
unvisited vertices. -/
theorem dfs_visit_enough {n : Nat} (adj : Fin n → List (Fin n)) :
    ∀ (fuel : Nat) (v : Fin n) (V : Finset (Fin n)), v ∉ V →
      (Finset.univ \ V).card ≤ fuel → (dfs_visit adj fuel v V).isSome := by
  intro fuel
  induction fuel with
  | zero =>
    intro v V hv hcard
    exfalso
    have hmem : v ∈ Finset.univ \ V :=
      Finset.mem_sdiff.mpr ⟨Finset.mem_univ v, hv⟩
    have := Finset.card_pos.mpr ⟨v, hmem⟩
    omega
  | succ fuel ih =>
    intro v V hv hcard
    simp only [dfs_visit]
    have hv' : v ∈ Finset.univ \ V :=
      Finset.mem_sdiff.mpr ⟨Finset.mem_univ v, hv⟩
    have hins : Finset.univ \ insert v V = (Finset.univ \ V).erase v := by
      ext x
      simp only [Finset.mem_sdiff, Finset.mem_insert, Finset.mem_erase,
        Finset.mem_univ, true_and]
      tauto
    have hcard' : (Finset.univ \ insert v V).card ≤ fuel := by
      rw [hins, Finset.card_erase_of_mem hv']
      have := Finset.card_pos.mpr ⟨v, hv'⟩
      omega
    obtain ⟨⟨o1, V1⟩, hn⟩ := Option.isSome_iff_exists.mp
      (dfs_nbrs_enough adj fuel (fun a b hab hb => ih a b hab hb)
        (adj v) (insert v V) hcard')
    rw [hn]
    rfl

/-- The explicit-stack loop agrees with the recursive neighbour scan: a
stack with visited set `V` produces exactly the recursive traversal of the
stack contents, appended to the accumulator. -/
theorem dfs_iter_loop_eq {n : Nat} (adj : Fin n → List (Fin n)) (F : Nat) :
    ∀ (fuelI : Nat) (stack : List (Fin n)) (V : Finset (Fin n))
      (acc o : List (Fin n)) (V' : Finset (Fin n)),
      dfs_nbrs (dfs_visit adj F) stack V = some (o, V') →
      stack.length + Finset.sum (Finset.univ \ V)
        (fun v => (adj v).length + 1) < fuelI →
      dfs_iter_loop adj fuelI stack V acc = some (acc ++ o) := by
  intro fuelI
  induction fuelI with
  | zero => intro stack V acc o V' _ hm; omega
  | succ fuelI ih =>
    intro stack V acc o V' hnb hm
    cases stack with
    | nil =>
      simp only [dfs_nbrs] at hnb
      cases hnb
      simp [dfs_iter_loop]
    | cons v rest =>
      simp only [dfs_iter_loop]
      simp only [dfs_nbrs] at hnb
      by_cases hmem : v ∈ V
      · rw [if_pos hmem] at hnb ⊢
        refine ih rest V acc o V' hnb ?_
        simp only [List.length_cons] at hm
        omega
      · rw [if_neg hmem] at hnb ⊢
        cases hv1 : dfs_visit adj F v V with
        | none => rw [hv1] at hnb; cases hnb
        | some r1 =>
          rcases r1 with ⟨o1, V1x⟩
          rw [hv1] at hnb
          simp only [] at hnb
          cases hn2 : dfs_nbrs (dfs_visit adj F) rest V1x with
          | none => rw [hn2] at hnb; cases hnb
          | some r2 =>
            rcases r2 with ⟨o2, V2⟩
            rw [hn2] at hnb
            simp only [] at hnb
            cases hnb
            cases F with
            | zero =>
              simp only [dfs_visit] at hv1
              exact Option.noConfusion hv1
            | succ F' =>
              simp only [dfs_visit] at hv1
              cases hin : dfs_nbrs (dfs_visit adj F') (adj v) (insert v V) with
              | none => rw [hin] at hv1; cases hv1
              | some rin =>
                rcases rin with ⟨o1', V1⟩
                rw [hin] at hv1
                simp only [] at hv1
                have hpair := Option.some.inj hv1
                have ho1 : o1 = v :: o1' := (congrArg Prod.fst hpair).symm
                have hV1x : V1 = V1x := congrArg Prod.snd hpair
                rw [hV1x] at hin
                have hin' : dfs_nbrs (dfs_visit adj (F' + 1)) (adj v)
                    (insert v V) = some (o1', V1x) :=
                  dfs_nbrs_mono _ _
                    (fun a b c hh => dfs_visit_mono adj F' (F' + 1)
                      (by omega) a b c hh) _ _ _ hin
                have happ : dfs_nbrs (dfs_visit adj (F' + 1))
                    ((adj v) ++ rest) (insert v V) = some (o1' ++ o2, V') :=
                  dfs_nbrs_append _ (adj v) rest (insert v V) V1x V' o1' o2
                    hin' hn2
                have hfil : dfs_nbrs (dfs_visit adj (F' + 1))
                    ((adj v).filter (fun nb => nb ∉ insert v V) ++ rest)
                    (insert v V) = some (o1' ++ o2, V') := by
                  rw [dfs_nbrs_filter _
                    (fun a b c d hh => dfs_visit_subset adj (F' + 1) a b c d hh)
                    (adj v) rest (insert v V) (insert v V)
                    (Finset.Subset.refl _)]
                  exact happ
                have hmeasure : ((adj v).filter
                      (fun nb => nb ∉ insert v V) ++ rest).length +
                    Finset.sum (Finset.univ \ insert v V)
                      (fun u => (adj u).length + 1) < fuelI := by
                  have h1 : ((adj v).filter
                      (fun nb => nb ∉ insert v V)).length ≤ (adj v).length :=
                    List.length_filter_le _ _
                  have hv' : v ∈ Finset.univ \ V :=
                    Finset.mem_sdiff.mpr ⟨Finset.mem_univ v, hmem⟩
                  have hins : Finset.univ \ insert v V =
                      (Finset.univ \ V).erase v := by
                    ext x
                    simp only [Finset.mem_sdiff, Finset.mem_insert,
                      Finset.mem_erase, Finset.mem_univ, true_and]
                    tauto
                  have hsum := Finset.add_sum_erase (Finset.univ \ V)
                    (fun u => (adj u).length + 1) hv'
                  simp only [] at hsum
                  rw [hins, List.length_append]
                  simp only [List.length_cons] at hm
                  omega
                have hrec := ih _ (insert v V) (acc ++ [v]) (o1' ++ o2) V'
                  hfil hmeasure
                rw [hrec, ho1]
                simp

/-- Claim C6: on every finite graph (an adjacency function on an arena of
`n` vertices) and every start vertex, the explicit-stack iterative DFS
returns exactly the same vertex sequence as the recursive DFS; reversing
the neighbour order before pushing makes the orders coincide. -/
theorem C6_dfs_iterative_eq_recursive {n : Nat} (adj : Fin n → List (Fin n))
    (start : Fin n) : dfs_iterative adj start = dfs_recursive adj start := by
  have hsome := dfs_visit_enough adj (n + 1) start ∅
    (Finset.not_mem_empty start)
    (by rw [Finset.sdiff_empty, Finset.card_univ, Fintype.card_fin]; omega)
  obtain ⟨⟨o, V'⟩, hv⟩ := Option.isSome_iff_exists.mp hsome
  have hnb : dfs_nbrs (dfs_visit adj (n + 1)) [start] ∅ = some (o, V') := by
    simp only [dfs_nbrs]
    rw [if_neg (Finset.not_mem_empty start), hv]
    simp [dfs_nbrs]
  have hloop := dfs_iter_loop_eq adj (n + 1)
    (2 + n + Finset.univ.sum (fun v => (adj v).length)) [start] ∅ [] o V' hnb
    (by
      rw [List.length_singleton, Finset.sdiff_empty, Finset.sum_add_distrib,
        Finset.sum_const, Finset.card_univ, Fintype.card_fin, smul_eq_mul,
        mul_one]
      omega)
  simp only [dfs_iterative, dfs_recursive]
  rw [hloop, hv]
  simp

/-! ## Claim C5: Floyd cycle detection -/

/-- One traversal step. -/
theorem tau_succ {n : Nat} (next : Fin n → Option (Fin n))
    (head : Option (Fin n)) (i : Nat) :
    tau n next head (i + 1) = (tau n next head i).bind next := rfl

/-- Once the traversal ends it stays ended. -/
theorem tau_none_mono {n : Nat} (next : Fin n → Option (Fin n))
    (head : Option (Fin n)) {i : Nat} (h : tau n next head i = none) :
    ∀ j, i ≤ j → tau n next head j = none := by
  intro j hij
  induction j, hij using Nat.le_induction with
  | base => exact h
  | succ j hij ih => rw [tau_succ, ih]; rfl

/-- Determinism: equal traversal points stay equal under further steps. -/
theorem tau_shift {n : Nat} (next : Fin n → Option (Fin n))
    (head : Option (Fin n)) {i j : Nat} (h : tau n next head i = tau n next head j) :
    ∀ d, tau n next head (i + d) = tau n next head (j + d) := by
  intro d
  induction d with
  | zero => exact h
  | succ d ih => rw [show i + (d + 1) = (i + d) + 1 from rfl,
      show j + (d + 1) = (j + d) + 1 from rfl, tau_succ, tau_succ, ih]

/-- Periodicity from one recurrence: beyond `mu` the traversal repeats with
period `lam`. -/
theorem tau_periodic {n : Nat} (next : Fin n → Option (Fin n))
    (head : Option (Fin n)) {mu lam : Nat}
    (hper : tau n next head (mu + lam) = tau n next head mu) :
    ∀ j t, mu ≤ j → tau n next head (j + t * lam) = tau n next head j := by
  intro j t hj
  induction t with
  | zero => simp
  | succ t ih =>
    have hshift := tau_shift next head hper (j - mu + t * lam)
    have h1 : mu + lam + (j - mu + t * lam) = j + (t + 1) * lam := by
      rw [Nat.succ_mul]
      omega
    have h2 : mu + (j - mu + t * lam) = j + t * lam := by omega
    rw [h1, h2] at hshift
    rw [hshift, ih]

/-- The prefix of the traversal up to a defined point is defined. -/
theorem tau_isSome_of_le {n : Nat} (next : Fin n → Option (Fin n))
    (head : Option (Fin n)) {i j : Nat} (hij : i ≤ j)
    (h : (tau n next head j).isSome) : (tau n next head i).isSome := by
  by_contra hcon
  have hi : tau n next head i = none := by
    cases hx : tau n next head i with
    | none => rfl
    | some v => rw [hx] at hcon; exact absurd rfl hcon
  rw [tau_none_mono next head hi j hij] at h
  cases h

/-- Canonical representative: any index at or beyond `mu` can be folded into
the window `[mu, mu + lam)`. -/
theorem tau_canon {n : Nat} (next : Fin n → Option (Fin n))
    (head : Option (Fin n)) {mu lam : Nat} (hlam : 0 < lam)
    (hper : tau n next head (mu + lam) = tau n next head mu) :
    ∀ i, mu ≤ i →
      tau n next head i = tau n next head (mu + (i - mu) % lam) := by
  intro i hi
  have hmod := Nat.div_add_mod (i - mu) lam
  have hcomm : ((i - mu) / lam) * lam = lam * ((i - mu) / lam) :=
    Nat.mul_comm _ _
  have h1 : (mu + (i - mu) % lam) + ((i - mu) / lam) * lam = i := by
    have := Nat.mod_lt (i - mu) hlam
    omega
  have := tau_periodic next head hper (mu + (i - mu) % lam) ((i - mu) / lam)
    (Nat.le_add_right _ _)
  rw [h1] at this
  exact this

/-- In the cyclic case the traversal is defined everywhere. -/
theorem tau_total {n : Nat} (next : Fin n → Option (Fin n))
    (head : Option (Fin n)) {mu lam : Nat} (hlam : 0 < lam)
    (hsome : (tau n next head mu).isSome)
    (hper : tau n next head (mu + lam) = tau n next head mu) :
    ∀ i, (tau n next head i).isSome := by
  intro i
  rcases Nat.lt_or_ge i (mu + lam) with h | h
  · refine tau_isSome_of_le next head (le_of_lt h) ?_
    rw [hper]
    exact hsome
  · rw [tau_canon next head hlam hper i (by omega)]
    refine tau_isSome_of_le next head
      (show mu + (i - mu) % lam ≤ mu + lam from ?_) ?_
    · have := Nat.mod_lt (i - mu) hlam
      omega
    · rw [hper]; exact hsome

/-- Two traversal points at or beyond `mu` coincide exactly when their
offsets agree modulo the cycle length (forward direction). -/
theorem tau_meet_mod {n : Nat} (next : Fin n → Option (Fin n))
    (head : Option (Fin n)) {mu lam : Nat} (hlam : 0 < lam)
    (hper : tau n next head (mu + lam) = tau n next head mu)
    (hinj : ∀ j, j < mu + lam → ∀ i, i < j →
      tau n next head i ≠ tau n next head j) :
    ∀ i j, mu ≤ i → mu ≤ j → tau n next head i = tau n next head j →
      (i - mu) % lam = (j - mu) % lam := by
  intro i j hi hj heq
  by_contra hne
  have hci := tau_canon next head hlam hper i hi
  have hcj := tau_canon next head hlam hper j hj
  have heq2 : tau n next head (mu + (i - mu) % lam) =
      tau n next head (mu + (j - mu) % lam) := by
    rw [← hci, ← hcj, heq]
  have hri := Nat.mod_lt (i - mu) hlam
  have hrj := Nat.mod_lt (j - mu) hlam
  rcases Nat.lt_or_ge ((i - mu) % lam) ((j - mu) % lam) with hlt | hge
  · exact hinj (mu + (j - mu) % lam) (by omega) (mu + (i - mu) % lam)
      (by omega) heq2
  · exact hinj (mu + (i - mu) % lam) (by omega) (mu + (j - mu) % lam)
      (by omega) heq2.symm

/-- A pre-cycle traversal point occurs nowhere else. -/
theorem tau_prefix_unique {n : Nat} (next : Fin n → Option (Fin n))
    (head : Option (Fin n)) {mu lam : Nat} (hlam : 0 < lam)
    (hper : tau n next head (mu + lam) = tau n next head mu)
    (hinj : ∀ j, j < mu + lam → ∀ i, i < j →
      tau n next head i ≠ tau n next head j) :
    ∀ j, j < mu → ∀ m, m ≠ j → tau n next head m ≠ tau n next head j := by
  intro j hj m hmj heq
  rcases Nat.lt_or_ge m (mu + lam) with hm | hm
  · rcases Nat.lt_trichotomy m j with h | h | h
    · exact hinj j (by omega) m h heq
    · exact hmj h
    · exact hinj m hm j h heq.symm
  · have hcm := tau_canon next head hlam hper m (by omega)
    have hrm := Nat.mod_lt (m - mu) hlam
    have heq2 : tau n next head (mu + (m - mu) % lam) = tau n next head j := by
      rw [← hcm]; exact heq
    exact hinj (mu + (m - mu) % lam) (by omega) j (by omega) heq2.symm

/-- On a terminating chain the defined traversal points are pairwise
distinct. -/
theorem tau_acyclic_inj {n : Nat} (next : Fin n → Option (Fin n))
    (head : Option (Fin n)) {m0 : Nat} (hm0 : tau n next head m0 = none) :
    ∀ i j, i < j → (tau n next head i).isSome →
      tau n next head i ≠ tau n next head j := by
  intro i j hij hsome heq
  have hshift : ∀ t, tau n next head (i + t * (j - i)) = tau n next head i := by
    intro t
    induction t with
    | zero => simp
    | succ t ih =>
      have h1 : i + (t + 1) * (j - i) = j + t * (j - i) := by
        rw [Nat.succ_mul]; omega
      rw [h1]
      have h2 := tau_shift next head heq.symm (t * (j - i))
      rw [h2, ih]
  have hone : 1 * (j - i) ≤ m0 * (j - i) + (j - i) := by
    have := Nat.mul_le_mul_right (j - i) (Nat.zero_le m0)
    omega
  have hgeq : m0 ≤ i + m0 * (j - i) := by
    have hji : 1 ≤ j - i := by omega
    calc m0 = m0 * 1 := by omega
    _ ≤ m0 * (j - i) := Nat.mul_le_mul_left m0 hji
    _ ≤ i + m0 * (j - i) := Nat.le_add_left _ _
  have hnone := tau_none_mono next head hm0 _ hgeq
  rw [hshift m0] at hnone
  rw [hnone] at hsome
  cases hsome

/-- Distinct defined traversal points embed into the arena, bounding their
number by `n`. -/
theorem tau_distinct_card {n : Nat} (next : Fin n → Option (Fin n))
    (head : Option (Fin n)) {m : Nat}
    (hsome : ∀ i, i < m → (tau n next head i).isSome)
    (hinj : ∀ j, j < m → ∀ i, i < j →
      tau n next head i ≠ tau n next head j) :
    m ≤ n := by
  have hinj2 : Function.Injective (fun i : Fin m =>
      (tau n next head i.1).get (hsome i.1 i.2)) := by
    intro a b hab
    have htau : tau n next head a.1 = tau n next head b.1 := by
      rw [← Option.some_get (hsome a.1 a.2), ← Option.some_get (hsome b.1 b.2)]
      exact congrArg some hab
    rcases Nat.lt_trichotomy a.1 b.1 with h | h | h
    · exact absurd htau (hinj b.1 b.2 a.1 h)
    · exact Fin.ext h
    · exact absurd htau.symm (hinj a.1 a.2 b.1 h)
  have := Fintype.card_le_of_injective _ hinj2
  simpa using this

/-- On a chain whose cursors never fall off, the `has_cycle` loop halts with
`True` once the tortoise and hare meet. -/
theorem hc_loop_cyclic {n : Nat} (next : Fin n → Option (Fin n))
    (head : Option (Fin n))
    (hall : ∀ m, (tau n next head m).isSome) (M : Nat)
    (hM : tau n next head M = tau n next head (2 * M)) :
    ∀ (fuel : Nat) (j : Nat), j < M → M - j ≤ fuel →
      has_cycle_loop n next fuel (tau n next head j)
        (tau n next head (2 * j)) = some true := by
  intro fuel
  induction fuel with
  | zero => intro j hj hf; omega
  | succ fuel ih =>
    intro j hj hf
    obtain ⟨f, hf2j⟩ := Option.isSome_iff_exists.mp (hall (2 * j))
    obtain ⟨f1, hf2j1⟩ := Option.isSome_iff_exists.mp (hall (2 * j + 1))
    have hnf : next f = some f1 := by
      have h1 := tau_succ next head (2 * j)
      rw [hf2j, hf2j1] at h1
      exact h1.symm
    simp only [has_cycle_loop]
    rw [hf2j]
    simp only []
    rw [hnf]
    simp only []
    have hslow : (tau n next head j).bind next = tau n next head (j + 1) :=
      (tau_succ next head j).symm
    have hfast : next f1 = tau n next head (2 * j + 2) := by
      have h1 := tau_succ next head (2 * j + 1)
      rw [hf2j1] at h1
      exact h1.symm
    rw [hslow, hfast]
    by_cases hcond : tau n next head (j + 1) = tau n next head (2 * j + 2)
    · rw [if_pos hcond]
    · rw [if_neg hcond]
      have hjM : j + 1 < M := by
        rcases Nat.eq_or_lt_of_le (show j + 1 ≤ M from hj) with he | hl
        · exfalso
          apply hcond
          rw [show 2 * j + 2 = 2 * (j + 1) from by ring, he]
          exact hM
        · exact hl
      have hrec := ih (j + 1) hjM (by omega)
      rw [show (2 * j + 2) = 2 * (j + 1) from by ring]
      exact hrec

/-- On a terminating chain the `has_cycle` loop falls off the end and
returns `False`. -/
theorem hc_loop_acyclic {n : Nat} (next : Fin n → Option (Fin n))
    (head : Option (Fin n)) {m0 : Nat}
    (hm0 : tau n next head m0 = none)
    (hbefore : ∀ i, i < m0 → (tau n next head i).isSome) :
    ∀ (fuel : Nat) (j : Nat), j ≤ m0 → m0 < fuel + j →
      has_cycle_loop n next fuel (tau n next head j)
        (tau n next head (2 * j)) = some false := by
  intro fuel
  induction fuel with
  | zero => intro j hj hf; omega
  | succ fuel ih =>
    intro j hj hf
    simp only [has_cycle_loop]
    by_cases h2j : m0 ≤ 2 * j
    · rw [tau_none_mono next head hm0 (2 * j) h2j]
    · push_neg at h2j
      obtain ⟨f, hf2j⟩ := Option.isSome_iff_exists.mp (hbefore (2 * j) h2j)
      rw [hf2j]
      simp only []
      have hnf : next f = tau n next head (2 * j + 1) := by
        have h1 := tau_succ next head (2 * j)
        rw [hf2j] at h1
        exact h1.symm
      by_cases h2j1 : m0 ≤ 2 * j + 1
      · have hend : next f = none := by
          rw [hnf, show 2 * j + 1 = m0 from by omega]
          exact hm0
        rw [hend]
      · push_neg at h2j1
        obtain ⟨f1, hf1⟩ := Option.isSome_iff_exists.mp
          (hbefore (2 * j + 1) h2j1)
        rw [hnf, hf1]
        simp only []
        have h1 : (tau n next head j).bind next = tau n next head (j + 1) :=
          (tau_succ next head j).symm
        have h2 : next f1 = tau n next head (2 * j + 2) := by
          have h3 := tau_succ next head (2 * j + 1)
          rw [hf1] at h3
          exact h3.symm
        rw [h1, h2]
        have hcond : tau n next head (j + 1) ≠ tau n next head (2 * j + 2) := by
          apply tau_acyclic_inj next head hm0 (j + 1) (2 * j + 2) (by omega)
          exact hbefore (j + 1) (by omega)
        rw [if_neg hcond]
        have hrec := ih (j + 1) (by omega) (by omega)
        rw [show (2 * j + 2) = 2 * (j + 1) from by ring]
        exact hrec

/-- On a chain whose cursors never fall off, the meeting loop halts with a
meeting point: a first index `im ≥ 1` with `tau im = tau (2 im)`. -/
theorem meet_loop_cyclic {n : Nat} (next : Fin n → Option (Fin n))
    (head : Option (Fin n))
    (hall : ∀ m, (tau n next head m).isSome) (M : Nat)
    (hM : tau n next head M = tau n next head (2 * M)) :
    ∀ (fuel : Nat) (j : Nat), j < M → M - j ≤ fuel →
      ∃ im, 1 ≤ im ∧ tau n next head im = tau n next head (2 * im) ∧
        find_cycle_start_meet n next fuel (tau n next head j)
          (tau n next head (2 * j)) = some (tau n next head im) := by
  intro fuel
  induction fuel with
  | zero => intro j hj hf; omega
  | succ fuel ih =>
    intro j hj hf
    obtain ⟨f, hf2j⟩ := Option.isSome_iff_exists.mp (hall (2 * j))
    obtain ⟨f1, hf2j1⟩ := Option.isSome_iff_exists.mp (hall (2 * j + 1))
    have hnf : next f = some f1 := by
      have h1 := tau_succ next head (2 * j)
      rw [hf2j, hf2j1] at h1
      exact h1.symm
    simp only [find_cycle_start_meet]
    rw [hf2j]
    simp only []
    rw [hnf]
    simp only []
    have hslow : (tau n next head j).bind next = tau n next head (j + 1) :=
      (tau_succ next head j).symm
    have hfast : next f1 = tau n next head (2 * j + 2) := by
      have h1 := tau_succ next head (2 * j + 1)
      rw [hf2j1] at h1
      exact h1.symm
    rw [hslow, hfast]
    by_cases hcond : tau n next head (j + 1) = tau n next head (2 * j + 2)
    · rw [if_pos hcond]
      refine ⟨j + 1, by omega, ?_, rfl⟩
      rw [show 2 * (j + 1) = 2 * j + 2 from by ring]
      exact hcond
    · rw [if_neg hcond]
      have hjM : j + 1 < M := by
        rcases Nat.eq_or_lt_of_le (show j + 1 ≤ M from hj) with he | hl
        · exfalso
          apply hcond
          rw [show 2 * j + 2 = 2 * (j + 1) from by ring, he]
          exact hM
        · exact hl
      have hrec := ih (j + 1) hjM (by omega)
      rw [show (2 * j + 2) = 2 * (j + 1) from by ring]
      exact hrec

/-- On a terminating chain the meeting loop falls off the end and reports no
cycle. -/
theorem meet_loop_acyclic {n : Nat} (next : Fin n → Option (Fin n))
    (head : Option (Fin n)) {m0 : Nat}
    (hm0 : tau n next head m0 = none)
    (hbefore : ∀ i, i < m0 → (tau n next head i).isSome) :
    ∀ (fuel : Nat) (j : Nat), j ≤ m0 → m0 < fuel + j →
      find_cycle_start_meet n next fuel (tau n next head j)
        (tau n next head (2 * j)) = some none := by
  intro fuel
  induction fuel with
  | zero => intro j hj hf; omega
  | succ fuel ih =>
    intro j hj hf
    simp only [find_cycle_start_meet]
    by_cases h2j : m0 ≤ 2 * j
    · rw [tau_none_mono next head hm0 (2 * j) h2j]
    · push_neg at h2j
      obtain ⟨f, hf2j⟩ := Option.isSome_iff_exists.mp (hbefore (2 * j) h2j)
      rw [hf2j]
      simp only []
      have hnf : next f = tau n next head (2 * j + 1) := by
        have h1 := tau_succ next head (2 * j)
        rw [hf2j] at h1
        exact h1.symm
      by_cases h2j1 : m0 ≤ 2 * j + 1
      · have hend : next f = none := by
          rw [hnf, show 2 * j + 1 = m0 from by omega]
          exact hm0
        rw [hend]
      · push_neg at h2j1
        obtain ⟨f1, hf1⟩ := Option.isSome_iff_exists.mp
          (hbefore (2 * j + 1) h2j1)
        rw [hnf, hf1]
        simp only []
        have h1 : (tau n next head j).bind next = tau n next head (j + 1) :=
          (tau_succ next head j).symm
        have h2 : next f1 = tau n next head (2 * j + 2) := by
          have h3 := tau_succ next head (2 * j + 1)
          rw [hf1] at h3
          exact h3.symm
        rw [h1, h2]
        have hcond : tau n next head (j + 1) ≠ tau n next head (2 * j + 2) := by
          apply tau_acyclic_inj next head hm0 (j + 1) (2 * j + 2) (by omega)
          exact hbefore (j + 1) (by omega)
        rw [if_neg hcond]
        have hrec := ih (j + 1) (by omega) (by omega)
        rw [show (2 * j + 2) = 2 * (j + 1) from by ring]
        exact hrec

/-- Phase 2 meets exactly at the cycle start: from a meeting offset that is
a multiple of the cycle length, the two unit-speed cursors first coincide at
index `mu`. -/
theorem phase2_spec {n : Nat} (next : Fin n → Option (Fin n))
    (head : Option (Fin n)) {mu lam : Nat} (hlam : 0 < lam)
    (hper : tau n next head (mu + lam) = tau n next head mu)
    (hinj : ∀ j, j < mu + lam → ∀ i, i < j →
      tau n next head i ≠ tau n next head j)
    {im : Nat} (him1 : 1 ≤ im) (hdvd : lam ∣ im) :
    ∀ (fuel : Nat) (j : Nat), j ≤ mu → mu - j < fuel →
      find_cycle_start_phase2 n next fuel (tau n next head j)
        (tau n next head (im + j)) = some (tau n next head mu) := by
  intro fuel
  induction fuel with
  | zero => intro j hj hf; omega
  | succ fuel ih =>
    intro j hj hf
    simp only [find_cycle_start_phase2]
    rcases Nat.eq_or_lt_of_le hj with heq | hlt
    · have hmeet : tau n next head j = tau n next head (im + j) := by
        obtain ⟨t, ht⟩ := hdvd
        rw [show im + j = j + t * lam from by rw [ht, Nat.mul_comm]; ring]
        exact (tau_periodic next head hper j t (by omega)).symm
      rw [if_pos hmeet, heq]
    · have hne : tau n next head j ≠ tau n next head (im + j) := by
        intro heq2
        exact tau_prefix_unique next head hlam hper hinj j hlt (im + j)
          (by omega) heq2.symm
      rw [if_neg hne]
      have h1 : (tau n next head j).bind next = tau n next head (j + 1) :=
        (tau_succ next head j).symm
      have h2 : (tau n next head (im + j)).bind next =
          tau n next head (im + (j + 1)) := by
        rw [show im + (j + 1) = (im + j) + 1 from by ring]
        exact (tau_succ next head (im + j)).symm
      rw [h1, h2]
      exact ih (j + 1) (by omega) (by omega)

/-- A tortoise/hare meeting offset is a multiple of the cycle length. -/
theorem meet_dvd {n : Nat} (next : Fin n → Option (Fin n))
    (head : Option (Fin n)) {mu lam : Nat} (hlam : 0 < lam)
    (hper : tau n next head (mu + lam) = tau n next head mu)
    (hinj : ∀ j, j < mu + lam → ∀ i, i < j →
      tau n next head i ≠ tau n next head j)
    {im : Nat} (him1 : 1 ≤ im)
    (hmeet : tau n next head im = tau n next head (2 * im)) : lam ∣ im := by
  have him_mu : mu ≤ im := by
    by_contra hcon
    push_neg at hcon
    exact tau_prefix_unique next head hlam hper hinj im hcon (2 * im)
      (by omega) hmeet.symm
  have hmod := tau_meet_mod next head hlam hper hinj im (2 * im) him_mu
    (by omega) hmeet
  have h1 : 2 * im - mu = (im - mu) + im := by omega
  rw [h1] at hmod
  have hmeq : Nat.ModEq lam (im - mu) ((im - mu) + im) := hmod
  have hdvd := (Nat.modEq_iff_dvd' (Nat.le_add_right (im - mu) im)).mp hmeq
  rw [show (im - mu) + im - (im - mu) = im from by omega] at hdvd
  exact hdvd

/-- C5: Floyd cycle detection. For every finite singly linked chain (arena of
`n` nodes with `next` pointers, traversal `tau` from the head): if the chain
has a cycle — the traversal is total, eventually periodic with exact
pre-period `mu` and exact period `lam` (all points before `mu + lam` are
pairwise distinct), and the first cycle node is `k = tau mu` — then
`has_cycle` returns `True` and `find_cycle_start` returns exactly node `k`;
if the chain is acyclic (the traversal falls off the end), `has_cycle`
returns `False` and `find_cycle_start` returns `None`. No path raises. -/
theorem C5_floyd_cycle_detection (n : Nat) (next : Fin n → Option (Fin n))
    (head : Option (Fin n)) :
    (∀ (mu lam : Nat) (k : Fin n), 0 < lam →
      tau n next head mu = some k →
      tau n next head (mu + lam) = tau n next head mu →
      (∀ j, j < mu + lam → ∀ i, i < j →
        tau n next head i ≠ tau n next head j) →
      has_cycle n next head = some true ∧
      find_cycle_start n next head = some (some k)) ∧
    (∀ m, tau n next head m = none →
      has_cycle n next head = some false ∧
      find_cycle_start n next head = some none) := by
  constructor
  · intro mu lam k hlam hk hper hinj
    have hsome_mu : (tau n next head mu).isSome := by rw [hk]; rfl
    have hall := tau_total next head hlam hsome_mu hper
    have hbound : mu + lam ≤ n :=
      tau_distinct_card next head (fun i _ => hall i) hinj
    obtain ⟨istar, histar⟩ : ∃ x, x = lam * (mu / lam + 1) := ⟨_, rfl⟩
    have hsucc : lam * (mu / lam + 1) = lam * (mu / lam) + lam :=
      Nat.mul_succ lam (mu / lam)
    have hdm := Nat.div_add_mod mu lam
    have hmodlt := Nat.mod_lt mu hlam
    have hmu_lt : mu < istar := by omega
    have histar_le : istar ≤ mu + lam := by omega
    have hM : tau n next head istar = tau n next head (2 * istar) := by
      have hp := tau_periodic next head hper istar (mu / lam + 1) (by omega)
      have harith : istar + (mu / lam + 1) * lam = 2 * istar := by
        rw [Nat.mul_comm (mu / lam + 1) lam]
        omega
      rw [harith] at hp
      exact hp.symm
    obtain ⟨h0, hh0⟩ := Option.isSome_iff_exists.mp (hall 0)
    obtain ⟨h1, hh1⟩ := Option.isSome_iff_exists.mp (hall 1)
    have hheads : head = some h0 := hh0
    have hnext0 : next h0 = some h1 := by
      have h2 := tau_succ next head 0
      rw [hh1, hh0] at h2
      exact h2.symm
    constructor
    · rw [hheads]
      simp only [has_cycle]
      rw [hnext0]
      simp only []
      have hloop := hc_loop_cyclic next head hall istar hM (n + 1) 0
        (by omega) (by omega)
      have hloop2 : has_cycle_loop n next (n + 1) head head = some true :=
        hloop
      rw [hheads] at hloop2
      exact hloop2
    · rw [hheads]
      simp only [find_cycle_start]
      rw [hnext0]
      simp only []
      obtain ⟨im, him1, hmeet, hmeq⟩ := meet_loop_cyclic next head hall istar
        hM (n + 1) 0 (by omega) (by omega)
      have hmeq2 : find_cycle_start_meet n next (n + 1) (some h0) (some h0) =
          some (tau n next head im) := by
        rw [← hheads]
        exact hmeq
      obtain ⟨mv, hmv⟩ := Option.isSome_iff_exists.mp (hall im)
      rw [hmv] at hmeq2
      rw [hmeq2]
      simp only []
      have hdvd := meet_dvd next head hlam hper hinj him1 hmeet
      have hp2 := phase2_spec next head hlam hper hinj him1 hdvd (n + 1) 0
        (Nat.zero_le mu) (by omega)
      have hp2b : find_cycle_start_phase2 n next (n + 1) (some h0)
          (tau n next head im) = some (tau n next head mu) := by
        rw [← hheads]
        exact hp2
      rw [hmv, hk] at hp2b
      exact hp2b
  · intro m hm
    have hex : ∃ i, tau n next head i = none := ⟨m, hm⟩
    obtain ⟨m0, hm0, hbefore⟩ : ∃ m0, tau n next head m0 = none ∧
        ∀ i, i < m0 → (tau n next head i).isSome :=
      ⟨Nat.find hex, Nat.find_spec hex, fun i hi =>
        Option.isSome_iff_ne_none.mpr (Nat.find_min hex hi)⟩
    have hinjB : ∀ j, j < m0 → ∀ i, i < j →
        tau n next head i ≠ tau n next head j := fun j hj i hij =>
      tau_acyclic_inj next head hm0 i j hij (hbefore i (lt_trans hij hj))
    have hm0n : m0 ≤ n := tau_distinct_card next head hbefore hinjB
    rcases hh0 : tau n next head 0 with _ | h0
    · have hheadn : head = none := hh0
      constructor
      · rw [hheadn]
        simp only [has_cycle]
      · rw [hheadn]
        simp only [find_cycle_start]
    · have hheads : head = some h0 := hh0
      rcases hn1 : next h0 with _ | h1
      · constructor
        · rw [hheads]
          simp only [has_cycle]
          rw [hn1]
        · rw [hheads]
          simp only [find_cycle_start]
          rw [hn1]
      · constructor
        · rw [hheads]
          simp only [has_cycle]
          rw [hn1]
          simp only []
          have hloop := hc_loop_acyclic next head hm0 hbefore (n + 1) 0
            (Nat.zero_le m0) (by omega)
          have hloop2 : has_cycle_loop n next (n + 1) head head =
              some false := hloop
          rw [hheads] at hloop2
          exact hloop2
        · rw [hheads]
          simp only [find_cycle_start]
          rw [hn1]
          simp only []
          have hmeet := meet_loop_acyclic next head hm0 hbefore (n + 1) 0
            (Nat.zero_le m0) (by omega)
          have hmeet2 : find_cycle_start_meet n next (n + 1) head head =
              some none := hmeet
          rw [hheads] at hmeet2
          rw [hmeet2]

/-- Witness: a 3-node chain 0 → 1 → 2 → 1 with cycle start 1 (`mu = 1`,
`lam = 2`) is detected with cycle start node 1; the acyclic 2-node chain
0 → 1 reports no cycle. -/
theorem C5_floyd_cycle_detection_witness :
    (has_cycle 3
        (fun i => if i.1 = 0 then some 1 else if i.1 = 1 then some 2 else
          some 1) (some 0) = some true ∧
      find_cycle_start 3
        (fun i => if i.1 = 0 then some 1 else if i.1 = 1 then some 2 else
          some 1) (some 0) = some (some 1)) ∧
    (has_cycle 2 (fun i => if i.1 = 0 then some 1 else none) (some 0) =
        some false ∧
      find_cycle_start 2 (fun i => if i.1 = 0 then some 1 else none)
        (some 0) = some none) :=
  ⟨(C5_floyd_cycle_detection 3
      (fun i => if i.1 = 0 then some 1 else if i.1 = 1 then some 2 else
        some 1) (some 0)).1 1 2 1 (by decide) (by decide) (by decide)
      (by decide),
   (C5_floyd_cycle_detection 2 (fun i => if i.1 = 0 then some 1 else none)
      (some 0)).2 2 (by decide)⟩
